import Mathlib

/-!
Verification of the atlas-packing and tile-meshing core (`meshgenerator2.py`).

The development shallowly embeds the two core functions:

* `generate_color_atlas` — scans the image, collects the distinct visible
  colors, packs them into a 1024×1024 grid and returns the color→UV-center
  map together with the grid dimensions;
* `create_tiled_meshes` — partitions the image into tiles bounded by a
  triangle budget and emits, per non-fully-transparent tile, one mesh file
  of per-pixel quads.

Modelling conventions: 8-bit channels are `Nat` (claims only inspect
`alpha = 0` / `alpha > 0`); the Python float arithmetic on the cell
bounds `int(col * (tex_size / cols))` is modelled faithfully: `RN` below
implements IEEE-754 double rounding (round to nearest, ties to even) on
exact rationals, both the division `tex_size / cols` and the
multiplication `col * cell_w` round, and the recorded UV centers live in
`ℚ`; the Python `set` of colors is modelled as deduplication of the
raster-order scan sequence (enumeration order of the set is unspecified
in the source); a run that raises an exception is modelled as `none`.
-/

/-- An RGBA color key: the 4-tuple `tuple(orig_pixels[y, x])`.
Channels are 8-bit in the source; the claims only inspect the alpha
channel, so channels are modelled as `Nat`. -/
structure Color where
  r : Nat
  g : Nat
  b : Nat
  a : Nat
deriving DecidableEq

/-- A decoded RGBA raster image: width, height, and the pixel lookup
`orig_pixels[y, x]` (given here as `pix x y`). -/
structure Image where
  w : Nat
  h : Nat
  pix : Nat → Nat → Color

/-- All pixel coordinates of the image in raster scan order:
`for y in range(h): for x in range(w)`. -/
def allPixels (img : Image) : List (Nat × Nat) :=
  (List.range img.h).flatMap fun y => (List.range img.w).map fun x => (x, y)

/-- The scan sequence of colors of visible pixels (`if color[3] > 0`),
in raster order, duplicates included. -/
def visibleColorsSeq (img : Image) : List Color :=
  (allPixels img).filterMap fun p =>
    if (img.pix p.1 p.2).a > 0 then some (img.pix p.1 p.2) else none

/-- `unique_colors = list(set(...))`: the distinct visible colors.  The
Python `set` enumeration order is unspecified; it is modelled by
deduplicating the scan sequence. -/
def uniqueColors (img : Image) : List Color :=
  (visibleColorsSeq img).dedup

/-- `tex_size = 1024`. -/
def tex_size : Nat := 1024

/-- `max_colors = tex_size * tex_size`. -/
def max_colors : Nat := tex_size * tex_size

/-- `if num_colors > max_colors: unique_colors = unique_colors[:max_colors]`. -/
def packColors (cs : List Color) : List Color :=
  if cs.length > max_colors then cs.take max_colors else cs

/-- The post-truncation color count `num_colors`. -/
def num_colors (img : Image) : Nat :=
  (packColors (uniqueColors img)).length

/-- `math.ceil(math.sqrt n)`.  For `n ≤ tex_size²` the float square root
is correctly rounded and never crosses an integer, so the ceiling equals
`Nat.sqrt n` when `n` is a perfect square and `Nat.sqrt n + 1` otherwise. -/
def ceilSqrt (n : Nat) : Nat :=
  if Nat.sqrt n * Nat.sqrt n = n then Nat.sqrt n else Nat.sqrt n + 1

/-- `math.ceil(a / b)` for natural `a` and positive natural `b`,
computed exactly. -/
def ceilDivN (a b : Nat) : Nat :=
  (a + b - 1) / b

/-- `cols = math.ceil(math.sqrt(num_colors))`. -/
def atlasCols (img : Image) : Nat :=
  ceilSqrt (num_colors img)

/-- `rows = math.ceil(num_colors / cols)` (defined when `cols ≠ 0`;
the `cols = 0` case is the Python `ZeroDivisionError`, handled in
`generate_color_atlas`). -/
def atlasRows (img : Image) : Nat :=
  ceilDivN (num_colors img) (atlasCols img)

/-- The exact-arithmetic reference value `⌊tex_size * i / cols⌋`.  This
is *not* the program's computation (which uses floats, `cellBoundF`
below); it serves as the yardstick the float value is proved to stay
within one of. -/
def cellBound (cols i : Nat) : Nat :=
  tex_size * i / cols

/-- Round a nonnegative rational to the nearest integer, ties to even:
the integer-rounding step of IEEE-754 round-to-nearest-even. -/
def rnNat (t : ℚ) : Nat :=
  if 2 * (t - (Nat.floor t : ℚ)) < 1 then Nat.floor t
  else if (1 : ℚ) < 2 * (t - (Nat.floor t : ℚ)) then Nat.floor t + 1
  else if Nat.floor t % 2 = 0 then Nat.floor t else Nat.floor t + 1

/-- IEEE-754 double rounding (round to nearest, ties to even) of an
exact rational.  For `1 ≤ q < 2^53` the binade exponent is
`e = Nat.log2 ⌊q⌋` and the representable doubles around `q` are the
multiples of `2^(e-52)`, so `RN q = rnNat (q * 2^(52-e)) / 2^(52-e)`;
`RN 0 = 0`.  Every rounding performed by the source lands in this
range (`1024 / cols ∈ [1, 1024]` and `col * cell_w ∈ [1, 2^21)` for
`col ≥ 1`), where this is exactly the IEEE result. -/
def RN (q : ℚ) : ℚ :=
  (rnNat (q * 2 ^ (52 - Nat.log2 (Nat.floor q))) : ℚ)
    / 2 ^ (52 - Nat.log2 (Nat.floor q))

/-- `int(i * cell_w)` where `cell_w = tex_size / cols`, computed as the
source does: the Python float division `tex_size / cols` rounds, the
float product `i * cell_w` rounds, and `int` truncates (= floor, the
value is nonnegative). -/
def cellBoundF (cols i : Nat) : Nat :=
  Nat.floor (RN ((i : ℚ) * RN ((tex_size : ℚ) / (cols : ℚ))))

/-- The UV center recorded for color index `i`:
`u = (x_start + x_end) / (2 * tex_size)`, `v = (y_start + y_end) / (2 * tex_size)`
with `col = i % cols`, `row = i // cols`, the bounds being the float
values `cellBoundF`. -/
def uvCenter (cols rows i : Nat) : ℚ × ℚ :=
  (((cellBoundF cols (i % cols) : ℚ) + (cellBoundF cols (i % cols + 1) : ℚ)) / (2 * tex_size),
   ((cellBoundF rows (i / cols) : ℚ) + (cellBoundF rows (i / cols + 1) : ℚ)) / (2 * tex_size))

/-- The `color_to_uv` dictionary: `for i, color in enumerate(unique_colors):
color_to_uv[color] = (u, v)`, as an association list in enumeration order
(the packed color list has no duplicate keys). -/
def colorToUV (img : Image) : List (Color × ℚ × ℚ) :=
  (packColors (uniqueColors img)).enum.map fun ic =>
    (ic.2, uvCenter (atlasCols img) (atlasRows img) ic.1)

/-- The data returned by `generate_color_atlas`: the color→UV map, the
grid dimensions, and the original image dimensions `(w, h)`. -/
structure AtlasResult where
  uvMap : List (Color × ℚ × ℚ)
  cols : Nat
  rows : Nat
  dims : Nat × Nat
deriving DecidableEq

/-- `generate_color_atlas`: `none` models the run aborting with
`ZeroDivisionError` at `rows = math.ceil(num_colors / cols)` when
`cols = 0`, i.e. when no pixel is visible. -/
def generate_color_atlas (img : Image) : Option AtlasResult :=
  if atlasCols img = 0 then none
  else some ⟨colorToUV img, atlasCols img, atlasRows img, (img.w, img.h)⟩

/-- Pixel coordinates of the tile rectangle `[x0, x1) × [y0, y1)` in the
order the tile loop visits them: `for y in range(y_start, y_end):
for x in range(x_start, x_end)`. -/
def tilePixels (x0 x1 y0 y1 : Nat) : List (Nat × Nat) :=
  (List.range' y0 (y1 - y0)).flatMap fun y =>
    (List.range' x0 (x1 - x0)).map fun x => (x, y)

/-- `is_tile_fully_transparent`: `np.all(tile_alpha == 0)` over the tile
rectangle. -/
def is_tile_fully_transparent (img : Image) (x0 x1 y0 y1 : Nat) : Bool :=
  (tilePixels x0 x1 y0 y1).all fun p => (img.pix p.1 p.2).a == 0

/-- `cols_per_mesh = min(orig_w, math.isqrt(max_pixels_per_mesh))` where
`max_pixels_per_mesh = max_tris // 2`. -/
def colsPerMesh (w maxTris : Nat) : Nat :=
  min w (Nat.sqrt (maxTris / 2))

/-- `rows_per_mesh = min(orig_h, max_pixels_per_mesh // cols_per_mesh)`. -/
def rowsPerMesh (h w maxTris : Nat) : Nat :=
  min h ((maxTris / 2) / colsPerMesh w maxTris)

/-- `num_meshes_x = math.ceil(orig_w / cols_per_mesh)`. -/
def numMeshesX (w maxTris : Nat) : Nat :=
  ceilDivN w (colsPerMesh w maxTris)

/-- `num_meshes_y = math.ceil(orig_h / rows_per_mesh)`. -/
def numMeshesY (h w maxTris : Nat) : Nat :=
  ceilDivN h (rowsPerMesh h w maxTris)

/-- `x_start = tile_x * cols_per_mesh`. -/
def tileXStart (w maxTris tx : Nat) : Nat :=
  tx * colsPerMesh w maxTris

/-- `x_end = min((tile_x + 1) * cols_per_mesh, orig_w)`. -/
def tileXEnd (w maxTris tx : Nat) : Nat :=
  min ((tx + 1) * colsPerMesh w maxTris) w

/-- `y_start = tile_y * rows_per_mesh`. -/
def tileYStart (h w maxTris ty : Nat) : Nat :=
  ty * rowsPerMesh h w maxTris

/-- `y_end = min((tile_y + 1) * rows_per_mesh, orig_h)`. -/
def tileYEnd (h w maxTris ty : Nat) : Nat :=
  min ((ty + 1) * rowsPerMesh h w maxTris) h

/-- The geometric content of one emitted `.obj` file: the `v` lines, the
`vt` lines and the `f` lines, in emission order.  A `v` line is the
integer triple `(x, orig_h - y, 0)`; a `vt` line is the rational pair
`(u, 1 - v)`; an `f` line is its list of `vertex_index/uv_index` pairs. -/
structure TileGeom where
  verts : List (Int × Int × Int)
  uvs : List (ℚ × ℚ)
  faces : List (List (Nat × Nat))
deriving DecidableEq

/-- The four `v` lines written for the pixel `(x, y)` (Y flipped):
`(x, H-y, 0)`, `(x+1, H-y, 0)`, `(x+1, H-y-1, 0)`, `(x, H-y-1, 0)`. -/
def pixelVerts (H x y : Nat) : List (Int × Int × Int) :=
  [((x : Int), (H : Int) - (y : Int), 0),
   ((x : Int) + 1, (H : Int) - (y : Int), 0),
   ((x : Int) + 1, (H : Int) - (y : Int) - 1, 0),
   ((x : Int), (H : Int) - (y : Int) - 1, 0)]

/-- `color_to_uv.get(color, (0, 0))`: dictionary lookup with default. -/
def uvLookup (m : List (Color × ℚ × ℚ)) (c : Color) : ℚ × ℚ :=
  match m with
  | [] => (0, 0)
  | q :: rest => if q.1 = c then q.2 else uvLookup rest c

/-- The four identical `vt` lines written for a pixel of color `c`:
each is `(u, 1 - v)` for `(u, v) = color_to_uv.get(c, (0, 0))`. -/
def pixelUVs (m : List (Color × ℚ × ℚ)) (c : Color) : List (ℚ × ℚ) :=
  List.replicate 4 ((uvLookup m c).1, 1 - (uvLookup m c).2)

/-- The `f` line
`f vi/ui vi+1/ui+1 vi+2/ui+2 vi+3/ui+3`. -/
def faceLine (vi ui : Nat) : List (Nat × Nat) :=
  [(vi, ui), (vi + 1, ui + 1), (vi + 2, ui + 2), (vi + 3, ui + 3)]

/-- The pixel loop of one tile: starting from counters `vi`, `ui`, write
4 vertices and 4 UVs per pixel unconditionally, an `f` line only when the
pixel's alpha is positive, and advance both counters by 4 per pixel. -/
def emitPixels (img : Image) (m : List (Color × ℚ × ℚ)) (vi ui : Nat) :
    List (Nat × Nat) → TileGeom
  | [] => ⟨[], [], []⟩
  | p :: ps =>
    let rest := emitPixels img m (vi + 4) (ui + 4) ps
    ⟨pixelVerts img.h p.1 p.2 ++ rest.verts,
     pixelUVs m (img.pix p.1 p.2) ++ rest.uvs,
     (if (img.pix p.1 p.2).a > 0 then [faceLine vi ui] else []) ++ rest.faces⟩

/-- One emitted mesh file `pixel_mesh_{tile_x}_{tile_y}.obj`: the tile
coordinates naming the file, and its geometric content. -/
structure MeshFile where
  tileX : Nat
  tileY : Nat
  geom : TileGeom
deriving DecidableEq

/-- The pixel list of the tile `(tx, ty)` of `img` under budget `maxTris`. -/
def tilePixelsAt (img : Image) (maxTris tx ty : Nat) : List (Nat × Nat) :=
  tilePixels (tileXStart img.w maxTris tx) (tileXEnd img.w maxTris tx)
    (tileYStart img.h img.w maxTris ty) (tileYEnd img.h img.w maxTris ty)

/-- The mesh file written for the tile `(tx, ty)` (counters start at 1). -/
def tileMeshAt (img : Image) (m : List (Color × ℚ × ℚ)) (maxTris tx ty : Nat) :
    MeshFile :=
  ⟨tx, ty, emitPixels img m 1 1 (tilePixelsAt img maxTris tx ty)⟩

/-- The tile body: `continue` (no file) when the tile is fully
transparent, otherwise the tile's mesh file. -/
def tileEntry (img : Image) (m : List (Color × ℚ × ℚ)) (maxTris tx ty : Nat) :
    Option MeshFile :=
  if is_tile_fully_transparent img (tileXStart img.w maxTris tx)
      (tileXEnd img.w maxTris tx) (tileYStart img.h img.w maxTris ty)
      (tileYEnd img.h img.w maxTris ty) then none
  else some (tileMeshAt img m maxTris tx ty)

/-- `create_tiled_meshes`: the list of emitted mesh files, tiles visited
row-major (`for tile_y: for tile_x`). -/
def create_tiled_meshes (img : Image) (m : List (Color × ℚ × ℚ))
    (maxTris : Nat) : List MeshFile :=
  (List.range (numMeshesY img.h img.w maxTris)).flatMap fun ty =>
    (List.range (numMeshesX img.w maxTris)).filterMap fun tx =>
      tileEntry img m maxTris tx ty

/-! ### Arithmetic facts about the grid computations -/

theorem ceilDivN_mul_ge (a : Nat) {b : Nat} (hb : 0 < b) :
    a ≤ ceilDivN a b * b := by
  unfold ceilDivN
  have hmod := Nat.mod_lt (a + b - 1) hb
  have hdm := Nat.div_add_mod (a + b - 1) b
  rw [Nat.mul_comm]
  generalize b * ((a + b - 1) / b) = q at hdm
  omega

theorem lt_ceilSqrt_sq (n : Nat) : n ≤ ceilSqrt n * ceilSqrt n := by
  unfold ceilSqrt
  split
  · omega
  · have h := Nat.lt_succ_sqrt n
    rw [Nat.succ_eq_add_one] at h
    omega

theorem ceilSqrt_eq_zero_iff (n : Nat) : ceilSqrt n = 0 ↔ n = 0 := by
  unfold ceilSqrt
  split
  · next h =>
    constructor
    · intro h0; rw [h0] at h; simpa using h.symm
    · intro h0; subst h0; simp [Nat.sqrt_zero]
  · next h =>
    constructor
    · intro h0; omega
    · intro h0; subst h0; exact absurd (by simp) h

theorem ceilSqrt_le_1024 {n : Nat} (h : n ≤ 1048576) : ceilSqrt n ≤ 1024 := by
  have hs : Nat.sqrt n ≤ 1024 := by
    by_contra hlt
    have h1 : 1025 ≤ Nat.sqrt n := by omega
    have h2 : 1025 * 1025 ≤ Nat.sqrt n * Nat.sqrt n := Nat.mul_le_mul h1 h1
    have h3 := Nat.sqrt_le n
    omega
  unfold ceilSqrt
  split
  · exact hs
  · next hsq =>
    have hne : n ≠ 1048576 := by
      intro he; subst he
      have h1024 : Nat.sqrt 1048576 = 1024 := by
        have h2 := Nat.lt_succ_sqrt 1048576
        rw [Nat.succ_eq_add_one] at h2
        by_contra hne2
        have h3 : Nat.sqrt 1048576 + 1 ≤ 1024 := by omega
        have h4 := Nat.mul_le_mul h3 h3
        omega
      exact hsq (by rw [h1024])
    have : Nat.sqrt n < 1024 := Nat.sqrt_lt.mpr (by omega)
    omega

theorem ceilSqrt_pos {n : Nat} (h : 0 < n) : 0 < ceilSqrt n := by
  have := (ceilSqrt_eq_zero_iff n).mp
  omega

/-- Monotonicity of the grid-line bound `int(i * cell_w)` in `i`. -/
theorem cellBound_mono (cols : Nat) {i j : Nat} (hij : i ≤ j) :
    cellBound cols i ≤ cellBound cols j :=
  Nat.div_le_div_right (Nat.mul_le_mul_left _ hij)

/-- Consecutive grid lines are strictly separated when the grid is no
finer than the texture (`cols ≤ tex_size`). -/
theorem cellBound_step {cols : Nat} (hc : 0 < cols) (hle : cols ≤ tex_size)
    (i : Nat) : cellBound cols i + 1 ≤ cellBound cols (i + 1) := by
  unfold cellBound
  have h1 : tex_size * i + cols ≤ tex_size * (i + 1) := by
    have : cols ≤ tex_size := hle
    ring_nf
    omega
  calc tex_size * i / cols + 1 = (tex_size * i + cols) / cols := by
        rw [Nat.add_div_right _ hc]
    _ ≤ tex_size * (i + 1) / cols := Nat.div_le_div_right h1

/-- Grid lines strictly inside the grid stay strictly inside the texture. -/
theorem cellBound_lt {cols i : Nat} (hi : i < cols) :
    cellBound cols i < tex_size := by
  unfold cellBound
  have hc : 0 < cols := by omega
  rw [Nat.div_lt_iff_lt_mul hc]
  have ht : 0 < tex_size := by norm_num [tex_size]
  exact mul_lt_mul_of_pos_left hi ht

/-- Grid lines never exceed the texture edge. -/
theorem cellBound_le {cols i : Nat} (hc : 0 < cols) (hi : i ≤ cols) :
    cellBound cols i ≤ tex_size := by
  unfold cellBound
  calc tex_size * i / cols ≤ tex_size * cols / cols :=
        Nat.div_le_div_right (Nat.mul_le_mul_left _ hi)
    _ = tex_size := Nat.mul_div_cancel _ hc

/-! ### Pixel enumeration facts -/

theorem mem_allPixels {img : Image} {p : Nat × Nat} :
    p ∈ allPixels img ↔ p.1 < img.w ∧ p.2 < img.h := by
  unfold allPixels
  constructor
  · intro hp
    rcases List.mem_flatMap.mp hp with ⟨y, hy, hp2⟩
    rcases List.mem_map.mp hp2 with ⟨x, hx, rfl⟩
    exact ⟨List.mem_range.mp hx, List.mem_range.mp hy⟩
  · intro ⟨hx, hy⟩
    refine List.mem_flatMap.mpr ⟨p.2, List.mem_range.mpr hy, ?_⟩
    exact List.mem_map.mpr ⟨p.1, List.mem_range.mpr hx, rfl⟩

theorem mem_tilePixels {x0 x1 y0 y1 : Nat} {p : Nat × Nat} :
    p ∈ tilePixels x0 x1 y0 y1 ↔
      x0 ≤ p.1 ∧ p.1 < x1 ∧ y0 ≤ p.2 ∧ p.2 < y1 := by
  unfold tilePixels
  constructor
  · intro hp
    rcases List.mem_flatMap.mp hp with ⟨y, hy, hp2⟩
    rcases List.mem_map.mp hp2 with ⟨x, hx, rfl⟩
    rcases List.mem_range'.mp hx with ⟨i, hi, rfl⟩
    rcases List.mem_range'.mp hy with ⟨j, hj, rfl⟩
    simp only
    omega
  · intro ⟨h1, h2, h3, h4⟩
    refine List.mem_flatMap.mpr ⟨p.2, ?_, ?_⟩
    · exact List.mem_range'.mpr ⟨p.2 - y0, by omega, by omega⟩
    · refine List.mem_map.mpr ⟨p.1, ?_, rfl⟩
      exact List.mem_range'.mpr ⟨p.1 - x0, by omega, by omega⟩

theorem length_tilePixels (x0 x1 y0 y1 : Nat) :
    (tilePixels x0 x1 y0 y1).length = (y1 - y0) * (x1 - x0) := by
  unfold tilePixels
  generalize y1 - y0 = n
  induction n generalizing y0 with
  | zero => simp
  | succ n ih =>
    rw [List.range'_succ, List.flatMap_cons, List.length_append, List.length_map,
      List.length_range', ih (y0 + 1)]
    ring

/-- A visible pixel's color key is collected into `unique_colors`. -/
theorem mem_uniqueColors_of_visible {img : Image} {x y : Nat}
    (hx : x < img.w) (hy : y < img.h) (ha : (img.pix x y).a > 0) :
    img.pix x y ∈ uniqueColors img := by
  unfold uniqueColors
  rw [List.mem_dedup]
  unfold visibleColorsSeq
  refine List.mem_filterMap.mpr ⟨(x, y), mem_allPixels.mpr ⟨hx, hy⟩, ?_⟩
  simp [ha]

/-- Conversely, `unique_colors` only holds visible colors of the image. -/
theorem of_mem_uniqueColors {img : Image} {c : Color}
    (hc : c ∈ uniqueColors img) :
    ∃ x y, x < img.w ∧ y < img.h ∧ img.pix x y = c ∧ c.a > 0 := by
  unfold uniqueColors at hc
  rw [List.mem_dedup] at hc
  unfold visibleColorsSeq at hc
  rcases List.mem_filterMap.mp hc with ⟨p, hp, hpc⟩
  rcases mem_allPixels.mp hp with ⟨hx, hy⟩
  by_cases ha : (img.pix p.1 p.2).a > 0
  · rw [if_pos ha] at hpc
    rcases Option.some.inj hpc with rfl
    exact ⟨p.1, p.2, hx, hy, rfl, ha⟩
  · rw [if_neg ha] at hpc
    exact absurd hpc (by simp)

/-! ### Atlas facts -/

theorem packColors_length_le (cs : List Color) :
    (packColors cs).length ≤ max_colors := by
  unfold packColors
  split
  · simp [List.length_take]
  · omega

theorem packColors_sublist (cs : List Color) :
    ∀ c ∈ packColors cs, c ∈ cs := by
  intro c hc
  unfold packColors at hc
  split at hc
  · exact List.mem_of_mem_take hc
  · exact hc

theorem packColors_nodup {cs : List Color} (h : cs.Nodup) :
    (packColors cs).Nodup := by
  unfold packColors
  split
  · exact h.sublist (List.take_sublist _ _)
  · exact h

theorem num_colors_le (img : Image) : num_colors img ≤ max_colors :=
  packColors_length_le _

theorem num_colors_pos {img : Image}
    (h : ∃ x, x < img.w ∧ ∃ y, y < img.h ∧ 0 < (img.pix x y).a) :
    0 < num_colors img := by
  rcases h with ⟨x, hx, y, hy, ha⟩
  have hm := mem_uniqueColors_of_visible hx hy ha
  have hne : uniqueColors img ≠ [] := by
    intro he; rw [he] at hm; exact absurd hm (List.not_mem_nil _)
  unfold num_colors packColors
  split
  · next hlen =>
    rw [List.length_take]
    have : (0:Nat) < max_colors := by norm_num [max_colors, tex_size]
    omega
  · next hlen =>
    have := List.length_pos.mpr hne
    omega

theorem ceilDivN_pos {a b : Nat} (ha : 0 < a) (hb : 0 < b) :
    0 < ceilDivN a b := by
  unfold ceilDivN
  have h1 : 1 * b ≤ a + b - 1 := by omega
  have := (Nat.le_div_iff_mul_le hb).mpr h1
  omega

theorem ceilDivN_le {a b k : Nat} (hb : 0 < b) (h : a ≤ b * k) :
    ceilDivN a b ≤ k := by
  unfold ceilDivN
  have h2 : a + b - 1 < (k + 1) * b := by
    have : (k + 1) * b = b * k + b := by ring
    omega
  have := (Nat.div_lt_iff_lt_mul hb).mpr h2
  omega

theorem atlasCols_pos {img : Image}
    (h : ∃ x, x < img.w ∧ ∃ y, y < img.h ∧ 0 < (img.pix x y).a) :
    0 < atlasCols img :=
  ceilSqrt_pos (num_colors_pos h)

theorem atlasCols_le {img : Image} : atlasCols img ≤ tex_size := by
  have h := num_colors_le img
  have : max_colors = 1048576 := by norm_num [max_colors, tex_size]
  have : tex_size = 1024 := by norm_num [tex_size]
  unfold atlasCols
  rw [this]
  exact ceilSqrt_le_1024 (by omega)

theorem atlasRows_pos {img : Image}
    (h : ∃ x, x < img.w ∧ ∃ y, y < img.h ∧ 0 < (img.pix x y).a) :
    0 < atlasRows img :=
  ceilDivN_pos (num_colors_pos h) (atlasCols_pos h)

theorem atlasRows_le {img : Image}
    (h : ∃ x, x < img.w ∧ ∃ y, y < img.h ∧ 0 < (img.pix x y).a) :
    atlasRows img ≤ tex_size := by
  have hc := atlasCols_pos h
  apply ceilDivN_le hc
  calc num_colors img ≤ atlasCols img * atlasCols img := lt_ceilSqrt_sq _
    _ ≤ atlasCols img * tex_size :=
        Nat.mul_le_mul_left _ atlasCols_le

/-- The packed color count fits the `cols × rows` grid. -/
theorem num_colors_le_mul {img : Image}
    (h : ∃ x, x < img.w ∧ ∃ y, y < img.h ∧ 0 < (img.pix x y).a) :
    num_colors img ≤ atlasCols img * atlasRows img := by
  have hc := atlasCols_pos h
  have := ceilDivN_mul_ge (num_colors img) hc
  unfold atlasRows
  rw [Nat.mul_comm]
  exact this

/-- The nearest-integer rounding stays within half a unit. -/
theorem rnNat_bounds {t : ℚ} (ht : 0 ≤ t) :
    t - 1 / 2 ≤ (rnNat t : ℚ) ∧ (rnNat t : ℚ) ≤ t + 1 / 2 := by
  have hfl : (Nat.floor t : ℚ) ≤ t := Nat.floor_le ht
  have hfu : t < Nat.floor t + 1 := Nat.lt_floor_add_one t
  unfold rnNat
  split
  · next h => exact ⟨by linarith, by linarith⟩
  · next h =>
    rw [not_lt] at h
    split
    · next h2 =>
      push_cast
      exact ⟨by linarith, by linarith⟩
    · next h2 =>
      rw [not_lt] at h2
      split
      · exact ⟨by linarith, by linarith⟩
      · push_cast
        exact ⟨by linarith, by linarith⟩

/-- Rounding is exact on the integers (within the modelled range). -/
theorem rnNat_natCast (m : Nat) : rnNat (m : ℚ) = m := by
  unfold rnNat
  rw [Nat.floor_natCast]
  simp

theorem RN_natCast (n : Nat) : RN (n : ℚ) = n := by
  unfold RN
  rw [Nat.floor_natCast]
  have hcast : (n : ℚ) * 2 ^ (52 - Nat.log2 n)
      = ((n * 2 ^ (52 - Nat.log2 n) : Nat) : ℚ) := by
    push_cast
    ring
  rw [hcast, rnNat_natCast]
  push_cast
  rw [mul_div_cancel_right₀]
  positivity

theorem RN_zero : RN 0 = 0 := by
  simpa using RN_natCast 0

/-- Relative error of one rounding: for `1 ≤ q ≤ 2^52`,
`|RN q - q| ≤ q / 2^52`. -/
theorem RN_err {q : ℚ} (h1 : 1 ≤ q) (h2 : q ≤ 2 ^ 52) :
    q - q / 2 ^ 52 ≤ RN q ∧ RN q ≤ q + q / 2 ^ 52 := by
  have hq0 : (0 : ℚ) ≤ q := by linarith
  have hfl1 : 1 ≤ Nat.floor q := Nat.le_floor (by exact_mod_cast h1)
  have hfne : Nat.floor q ≠ 0 := by omega
  set e := Nat.log2 (Nat.floor q) with he
  set s := 52 - e with hs
  have h2e : (2 : ℚ) ^ e ≤ q := by
    have hlog := Nat.log2_self_le hfne
    calc (2 : ℚ) ^ e = ((2 ^ e : Nat) : ℚ) := by push_cast; ring
      _ ≤ (Nat.floor q : ℚ) := by exact_mod_cast hlog
      _ ≤ q := Nat.floor_le hq0
  have hele : e ≤ 52 := by
    by_contra hgt
    have h53 : (2 : ℚ) ^ 53 ≤ (2 : ℚ) ^ e :=
      pow_le_pow_right₀ (by norm_num) (by omega)
    have : (2 : ℚ) ^ 52 < (2 : ℚ) ^ 53 := by norm_num
    linarith
  have hes : (2 : ℚ) ^ s * (2 : ℚ) ^ e = 2 ^ 52 := by
    rw [← pow_add]
    congr 1
    omega
  set t := q * 2 ^ s with htdef
  have ht0 : (0 : ℚ) ≤ t := by positivity
  have hrn := rnNat_bounds ht0
  have hspos : (0 : ℚ) < 2 ^ s := by positivity
  have hRN : RN q = (rnNat t : ℚ) / 2 ^ s := rfl
  have key : (1 : ℚ) / 2 ≤ q * 2 ^ s / 2 ^ 52 := by
    rw [div_le_div_iff (by norm_num) (by norm_num)]
    have hq2s : (2 : ℚ) ^ 52 ≤ q * 2 ^ s := by
      calc (2 : ℚ) ^ 52 = 2 ^ s * 2 ^ e := hes.symm
        _ ≤ 2 ^ s * q := mul_le_mul_of_nonneg_left h2e (le_of_lt hspos)
        _ = q * 2 ^ s := by ring
    nlinarith
  constructor
  · rw [hRN, le_div_iff₀ hspos]
    have hlow : t - 1 / 2 ≤ (rnNat t : ℚ) := hrn.1
    have hexp : (q - q / 2 ^ 52) * 2 ^ s = t - q * 2 ^ s / 2 ^ 52 := by
      rw [htdef]; ring
    rw [hexp]
    linarith
  · rw [hRN, div_le_iff₀ hspos]
    have hup : (rnNat t : ℚ) ≤ t + 1 / 2 := hrn.2
    have hexp : (q + q / 2 ^ 52) * 2 ^ s = t + q * 2 ^ s / 2 ^ 52 := by
      rw [htdef]; ring
    rw [hexp]
    linarith

/-- The float cell bound is sandwiched within one of the exact bound:
`⌊tex_size*i/cols⌋ - 1 ≤ cellBoundF cols i ≤ ⌊tex_size*i/cols⌋`.  The
two roundings move `i * (tex_size/cols)` by less than `2^-40`, far less
than the gap `1/cols ≥ 2^-10` between the exact value and the next
integer it does not attain, so the floor can drop only at exact integer
values, and by exactly one. -/
theorem cellBoundF_sandwich {cols i : Nat} (hc : 0 < cols)
    (hcle : cols ≤ tex_size) (hi : i ≤ cols) :
    cellBoundF cols i ≤ cellBound cols i ∧
    cellBound cols i ≤ cellBoundF cols i + 1 := by
  have htex : (tex_size : ℚ) = 1024 := by norm_num [tex_size]
  have hcle' : cols ≤ 1024 := by simpa [tex_size] using hcle
  have hcQ : (1 : ℚ) ≤ (cols : ℚ) := by exact_mod_cast hc
  have hcQ0 : (0 : ℚ) < (cols : ℚ) := by linarith
  have hcQle : (cols : ℚ) ≤ 1024 := by exact_mod_cast hcle'
  rcases Nat.eq_zero_or_pos i with rfl | hipos
  · constructor
    · unfold cellBoundF
      rw [Nat.cast_zero, zero_mul, RN_zero]
      simp
    · unfold cellBound
      simp
  by_cases hceq : cols = 1024
  · subst hceq
    have hcw : RN ((tex_size : ℚ) / ((1024 : Nat) : ℚ)) = 1 := by
      rw [show (tex_size : ℚ) / ((1024 : Nat) : ℚ) = ((1 : Nat) : ℚ) from by
        rw [htex]; norm_num]
      rw [RN_natCast]
      norm_num
    have hF : cellBoundF 1024 i = i := by
      unfold cellBoundF
      rw [hcw, mul_one, RN_natCast, Nat.floor_natCast]
    have hE : cellBound 1024 i = i := by
      unfold cellBound tex_size
      omega
    rw [hF, hE]
    omega
  have hc1023 : cols ≤ 1023 := by omega
  have hcQ1023 : (cols : ℚ) ≤ 1023 := by exact_mod_cast hc1023
  set q1 : ℚ := (tex_size : ℚ) / (cols : ℚ) with hq1def
  have hq1a : 1 ≤ q1 := by
    rw [hq1def, htex, one_le_div hcQ0]
    linarith
  have hq10 : (0 : ℚ) ≤ q1 := by linarith
  have hq1b : q1 ≤ 1024 := by
    rw [hq1def, htex, div_le_iff₀ hcQ0]
    nlinarith
  have hq1lb : (1024 : ℚ) / 1023 ≤ q1 := by
    rw [hq1def, htex]
    exact div_le_div_of_nonneg_left (by norm_num) hcQ0 hcQ1023
  have hq152 : q1 ≤ 2 ^ 52 := by
    calc q1 ≤ 1024 := hq1b
      _ ≤ 2 ^ 52 := by norm_num
  obtain ⟨hcwl, hcwu⟩ := RN_err hq1a hq152
  set cw : ℚ := RN q1 with hcwdef
  have hq1d : q1 / 2 ^ 52 ≤ 1024 / 2 ^ 52 := by
    rw [div_le_div_iff (by positivity) (by positivity)]
    exact mul_le_mul_of_nonneg_right hq1b (by positivity)
  have hcw1 : 1 ≤ cw := by
    have h2 : (1 : ℚ) ≤ 1024 / 1023 - 1024 / 2 ^ 52 := by norm_num
    linarith
  have hcw0 : (0 : ℚ) ≤ cw := by linarith
  have hcwle : cw ≤ 2048 := by
    have h1 : q1 / 2 ^ 52 ≤ q1 := div_le_self hq10 (by norm_num)
    linarith
  have hiQ : (1 : ℚ) ≤ (i : ℚ) := by exact_mod_cast hipos
  have hiQle : (i : ℚ) ≤ 1023 := by exact_mod_cast le_trans hi hc1023
  have hiQ0 : (0 : ℚ) ≤ (i : ℚ) := by linarith
  set q2 : ℚ := (i : ℚ) * cw with hq2def
  have hq2a : 1 ≤ q2 := by
    have := mul_le_mul hiQ hcw1 zero_le_one hiQ0
    rw [hq2def]
    linarith
  have hq2b : q2 ≤ 2 ^ 52 := by
    have := mul_le_mul hiQle hcwle hcw0 (by norm_num : (0:ℚ) ≤ 1023)
    rw [hq2def]
    calc (i : ℚ) * cw ≤ 1023 * 2048 := this
      _ ≤ 2 ^ 52 := by norm_num
  obtain ⟨hfl, hfu⟩ := RN_err hq2a hq2b
  set flv : ℚ := RN q2 with hflvdef
  set X : ℚ := (i : ℚ) * q1 with hXdef
  have hX1 : (1 : ℚ) ≤ X := by
    have := mul_le_mul hiQ hq1a zero_le_one hiQ0
    rw [hXdef]
    linarith
  have hX20 : X ≤ 1048576 := by
    have := mul_le_mul hiQle hq1b hq10 (by norm_num : (0:ℚ) ≤ 1023)
    rw [hXdef]
    nlinarith
  have hq1div0 : (0 : ℚ) ≤ q1 / 2 ^ 52 := div_nonneg hq10 (by positivity)
  have hidq : (i : ℚ) * (q1 / 2 ^ 52) ≤ 1023 * (1024 / 2 ^ 52) :=
    mul_le_mul hiQle hq1d hq1div0 (by norm_num)
  have hnum : (1023 : ℚ) * (1024 / 2 ^ 52) ≤ 1 / 4096 := by norm_num
  have hq2ub : q2 ≤ X + 1 / 4096 := by
    have h1 : q2 ≤ (i : ℚ) * (q1 + q1 / 2 ^ 52) := by
      rw [hq2def]
      exact mul_le_mul_of_nonneg_left hcwu hiQ0
    have h2 : (i : ℚ) * (q1 + q1 / 2 ^ 52) = X + (i : ℚ) * (q1 / 2 ^ 52) := by
      rw [hXdef]; ring
    linarith
  have hq2lb : X - 1 / 4096 ≤ q2 := by
    have h1 : (i : ℚ) * (q1 - q1 / 2 ^ 52) ≤ q2 := by
      rw [hq2def]
      exact mul_le_mul_of_nonneg_left hcwl hiQ0
    have h2 : (i : ℚ) * (q1 - q1 / 2 ^ 52) = X - (i : ℚ) * (q1 / 2 ^ 52) := by
      rw [hXdef]; ring
    linarith
  have hq2d : q2 / 2 ^ 52 ≤ 1 / 4096 := by
    have h1 : q2 ≤ 1048577 := by linarith
    calc q2 / 2 ^ 52 ≤ 1048577 / 2 ^ 52 := by
          rw [div_le_div_iff (by positivity) (by positivity)]
          exact mul_le_mul_of_nonneg_right h1 (by positivity)
      _ ≤ 1 / 4096 := by norm_num
  have hflub : flv ≤ X + 1 / 2048 := by linarith
  have hfllb : X - 1 / 2048 ≤ flv := by
    have h0 : (0 : ℚ) ≤ q2 / 2 ^ 52 := by positivity
    linarith
  have hdef : cellBoundF cols i = Nat.floor flv := rfl
  have hflv0 : (0 : ℚ) ≤ flv := by linarith
  set E : Nat := cellBound cols i with hEdef
  have hEq : tex_size * i = cols * E + (tex_size * i) % cols := by
    rw [hEdef]
    unfold cellBound
    exact (Nat.div_add_mod _ _).symm
  have hrlt : (tex_size * i) % cols < cols := Nat.mod_lt _ hc
  have hEcast : (tex_size : ℚ) * (i : ℚ)
      = (cols : ℚ) * (E : ℚ) + (((tex_size * i) % cols : Nat) : ℚ) := by
    exact_mod_cast hEq
  have hXE : X = (E : ℚ) + (((tex_size * i) % cols : Nat) : ℚ) / (cols : ℚ) := by
    have h1 : X = ((tex_size : ℚ) * (i : ℚ)) / (cols : ℚ) := by
      rw [hXdef, hq1def]; ring
    rw [h1, hEcast, add_div, mul_comm (cols : ℚ) (E : ℚ),
      mul_div_cancel_right₀ _ (ne_of_gt hcQ0)]
  have hrQ : (((tex_size * i) % cols : Nat) : ℚ) + 1 ≤ (cols : ℚ) := by
    exact_mod_cast hrlt
  have hXub2 : X ≤ (E : ℚ) + 1 - 1 / (cols : ℚ) := by
    rw [hXE]
    have h1 : (((tex_size * i) % cols : Nat) : ℚ) / (cols : ℚ)
        ≤ ((cols : ℚ) - 1) / (cols : ℚ) :=
      (div_le_div_right hcQ0).mpr (by linarith)
    have h2 : ((cols : ℚ) - 1) / (cols : ℚ) = 1 - 1 / (cols : ℚ) := by
      rw [sub_div, div_self (ne_of_gt hcQ0)]
    linarith
  have hXlb2 : (E : ℚ) ≤ X := by
    rw [hXE]
    have h0 : (0 : ℚ) ≤ (((tex_size * i) % cols : Nat) : ℚ) / (cols : ℚ) := by
      positivity
    linarith
  have hcolsinv : (1 : ℚ) / 1024 ≤ 1 / (cols : ℚ) :=
    div_le_div_of_nonneg_left (by norm_num) hcQ0 hcQle
  constructor
  · rw [hdef]
    have hlt : flv < ((E + 1 : Nat) : ℚ) := by
      push_cast
      linarith
    have := (Nat.floor_lt hflv0).mpr hlt
    omega
  · rw [hdef]
    rcases Nat.eq_zero_or_pos E with hE0 | hEpos
    · omega
    · have hc1 : ((E - 1 : Nat) : ℚ) = (E : ℚ) - 1 := by
        have h1 : E - 1 + 1 = E := by omega
        have h2 : ((E - 1 + 1 : Nat) : ℚ) = ((E : Nat) : ℚ) := by rw [h1]
        push_cast at h2
        linarith
      have hle : ((E - 1 : Nat) : ℚ) ≤ flv := by
        rw [hc1]
        linarith
      have := Nat.le_floor hle
      omega

/-- Consecutive cells have strictly larger float center numerators: the
difference of `x_start + x_end` between cells `c` and `c+1` telescopes
to `cellBoundF (c+2) - cellBoundF c`, and the exact bounds grow by two
over two grid lines while the float value deviates by at most one. -/
theorem cellSumF_succ {cols : Nat} (hc : 0 < cols) (hle : cols ≤ tex_size)
    {c : Nat} (hcc : c + 1 < cols) :
    cellBoundF cols c + cellBoundF cols (c + 1) <
      cellBoundF cols (c + 1) + cellBoundF cols (c + 2) := by
  have h1 := cellBoundF_sandwich hc hle (show c ≤ cols by omega)
  have h2 := cellBoundF_sandwich hc hle (show c + 2 ≤ cols by omega)
  have h3 := cellBound_step hc hle c
  have h4 := cellBound_step hc hle (c + 1)
  have e12 : c + 1 + 1 = c + 2 := by omega
  rw [e12] at h4
  omega

theorem cellSumF_strictMono {cols : Nat} (hc : 0 < cols)
    (hle : cols ≤ tex_size) {c1 c2 : Nat} (h12 : c1 < c2) (h2 : c2 < cols) :
    cellBoundF cols c1 + cellBoundF cols (c1 + 1) <
      cellBoundF cols c2 + cellBoundF cols (c2 + 1) := by
  induction c2 with
  | zero => omega
  | succ n ih =>
    rcases Nat.lt_or_ge c1 n with hlt | hge
    · calc cellBoundF cols c1 + cellBoundF cols (c1 + 1)
          < cellBoundF cols n + cellBoundF cols (n + 1) := ih hlt (by omega)
        _ < cellBoundF cols (n + 1) + cellBoundF cols (n + 2) :=
            cellSumF_succ hc hle (by omega)
    · have heq : c1 = n := by omega
      subst heq
      exact cellSumF_succ hc hle (by omega)

/-- Both coordinates of every recorded UV center lie in `[0, 1)`. -/
theorem uvCenter_mem_unit {cols rows i : Nat} (hc : 0 < cols)
    (hcle : cols ≤ tex_size) (hr : 0 < rows) (hrle : rows ≤ tex_size)
    (hi : i < cols * rows) :
    0 ≤ (uvCenter cols rows i).1 ∧ (uvCenter cols rows i).1 < 1 ∧
    0 ≤ (uvCenter cols rows i).2 ∧ (uvCenter cols rows i).2 < 1 := by
  have hts : (0 : ℚ) < 2 * (tex_size : ℚ) := by norm_num [tex_size]
  have hcol : i % cols < cols := Nat.mod_lt i hc
  have hrow : i / cols < rows := by
    rw [Nat.div_lt_iff_lt_mul hc]
    calc i < cols * rows := hi
      _ = rows * cols := Nat.mul_comm _ _
  have hu1 : cellBoundF cols (i % cols) < tex_size :=
    lt_of_le_of_lt (cellBoundF_sandwich hc hcle (by omega)).1 (cellBound_lt hcol)
  have hu2 : cellBoundF cols (i % cols + 1) ≤ tex_size :=
    le_trans (cellBoundF_sandwich hc hcle (by omega)).1 (cellBound_le hc (by omega))
  have hv1 : cellBoundF rows (i / cols) < tex_size :=
    lt_of_le_of_lt (cellBoundF_sandwich hr hrle (by omega)).1 (cellBound_lt hrow)
  have hv2 : cellBoundF rows (i / cols + 1) ≤ tex_size :=
    le_trans (cellBoundF_sandwich hr hrle (by omega)).1 (cellBound_le hr (by omega))
  unfold uvCenter
  refine ⟨?_, ?_, ?_, ?_⟩
  · exact div_nonneg (by positivity) (le_of_lt hts)
  · rw [div_lt_one hts]
    have h1 : (cellBoundF cols (i % cols) : ℚ) < (tex_size : ℚ) := by
      exact_mod_cast hu1
    have h2 : (cellBoundF cols (i % cols + 1) : ℚ) ≤ (tex_size : ℚ) := by
      exact_mod_cast hu2
    calc (cellBoundF cols (i % cols) : ℚ) + (cellBoundF cols (i % cols + 1) : ℚ)
        < (tex_size : ℚ) + (tex_size : ℚ) := add_lt_add_of_lt_of_le h1 h2
      _ = 2 * (tex_size : ℚ) := by ring
  · exact div_nonneg (by positivity) (le_of_lt hts)
  · rw [div_lt_one hts]
    have h1 : (cellBoundF rows (i / cols) : ℚ) < (tex_size : ℚ) := by
      exact_mod_cast hv1
    have h2 : (cellBoundF rows (i / cols + 1) : ℚ) ≤ (tex_size : ℚ) := by
      exact_mod_cast hv2
    calc (cellBoundF rows (i / cols) : ℚ) + (cellBoundF rows (i / cols + 1) : ℚ)
        < (tex_size : ℚ) + (tex_size : ℚ) := add_lt_add_of_lt_of_le h1 h2
      _ = 2 * (tex_size : ℚ) := by ring

/-- Distinct cell indices receive distinct UV centers. -/
theorem uvCenter_injective {cols rows : Nat} (hc : 0 < cols)
    (hcle : cols ≤ tex_size) (hr : 0 < rows) (hrle : rows ≤ tex_size)
    {i j : Nat} (hi : i < cols * rows) (hj : j < cols * rows) (hne : i ≠ j) :
    uvCenter cols rows i ≠ uvCenter cols rows j := by
  intro heq
  have hts : ((2 : ℚ) * (tex_size : ℚ)) ≠ 0 := by norm_num [tex_size]
  have hu : (uvCenter cols rows i).1 = (uvCenter cols rows j).1 := by rw [heq]
  have hv : (uvCenter cols rows i).2 = (uvCenter cols rows j).2 := by rw [heq]
  unfold uvCenter at hu hv
  simp only at hu hv
  have hu2 := congrArg (fun z : ℚ => z * (2 * (tex_size : ℚ))) hu
  have hv2 := congrArg (fun z : ℚ => z * (2 * (tex_size : ℚ))) hv
  simp only [div_mul_cancel₀ _ hts] at hu2 hv2
  have hu' : cellBoundF cols (i % cols) + cellBoundF cols (i % cols + 1)
      = cellBoundF cols (j % cols) + cellBoundF cols (j % cols + 1) := by
    exact_mod_cast hu2
  have hv' : cellBoundF rows (i / cols) + cellBoundF rows (i / cols + 1)
      = cellBoundF rows (j / cols) + cellBoundF rows (j / cols + 1) := by
    exact_mod_cast hv2
  have hrowi : i / cols < rows := by
    rw [Nat.div_lt_iff_lt_mul hc]
    calc i < cols * rows := hi
      _ = rows * cols := Nat.mul_comm _ _
  have hrowj : j / cols < rows := by
    rw [Nat.div_lt_iff_lt_mul hc]
    calc j < cols * rows := hj
      _ = rows * cols := Nat.mul_comm _ _
  have hmod : i % cols = j % cols := by
    by_contra hne2
    rcases Nat.lt_or_ge (i % cols) (j % cols) with hlt | hge
    · exact absurd hu'
        (Nat.ne_of_lt (cellSumF_strictMono hc hcle hlt (Nat.mod_lt j hc)))
    · have hlt : j % cols < i % cols := by omega
      exact absurd hu'.symm
        (Nat.ne_of_lt (cellSumF_strictMono hc hcle hlt (Nat.mod_lt i hc)))
  have hdiv : i / cols = j / cols := by
    by_contra hne2
    rcases Nat.lt_or_ge (i / cols) (j / cols) with hlt | hge
    · exact absurd hv'
        (Nat.ne_of_lt (cellSumF_strictMono hr hrle hlt hrowj))
    · have hlt : j / cols < i / cols := by omega
      exact absurd hv'.symm
        (Nat.ne_of_lt (cellSumF_strictMono hr hrle hlt hrowi))
  exact hne (by rw [← Nat.div_add_mod i cols, ← Nat.div_add_mod j cols, hmod, hdiv])

/-! ### Claims about the Atlas Builder -/

/-- When at least one color was collected, `generate_color_atlas`
completes and returns the map, the grid and the dimensions. -/
theorem generate_color_atlas_eq_some {img : Image} (hc : 0 < atlasCols img) :
    generate_color_atlas img
      = some ⟨colorToUV img, atlasCols img, atlasRows img, (img.w, img.h)⟩ := by
  unfold generate_color_atlas
  split
  · next h => omega
  · rfl

/-- **C7.** For every image with at least one visible pixel, the grid
dimensions computed from the post-truncation color count `n`,
`cols = ceil(sqrt(n))` and `rows = ceil(n / cols)`, satisfy
`cols × rows ≥ n`. -/
theorem claim_C7 (img : Image)
    (hvis : ∃ x, x < img.w ∧ ∃ y, y < img.h ∧ 0 < (img.pix x y).a) :
    ∃ res, generate_color_atlas img = some res ∧
      res.cols = ceilSqrt (num_colors img) ∧
      res.rows = ceilDivN (num_colors img) res.cols ∧
      num_colors img ≤ res.cols * res.rows := by
  have hc := atlasCols_pos hvis
  refine ⟨⟨colorToUV img, atlasCols img, atlasRows img, (img.w, img.h)⟩,
    generate_color_atlas_eq_some hc, ?_, ?_, ?_⟩
  · rfl
  · rfl
  · exact num_colors_le_mul hvis

/-- A sample image: one visible pixel. -/
def imgOnePx : Image := ⟨1, 1, fun _ _ => ⟨5, 6, 7, 255⟩⟩

theorem claim_C7_witness :
    (∃ x, x < imgOnePx.w ∧ ∃ y, y < imgOnePx.h ∧ 0 < (imgOnePx.pix x y).a) ∧
    (∃ res, generate_color_atlas imgOnePx = some res ∧
      res.cols = ceilSqrt (num_colors imgOnePx) ∧
      res.rows = ceilDivN (num_colors imgOnePx) res.cols ∧
      num_colors imgOnePx ≤ res.cols * res.rows) :=
  ⟨⟨0, by decide, 0, by decide, by decide⟩,
   claim_C7 imgOnePx ⟨0, by decide, 0, by decide, by decide⟩⟩

/-- **C6.** For every image with at least one visible pixel, every color
key in the UV map returned by the Atlas Builder has `u, v ∈ [0, 1)`, and
two distinct color keys are never assigned the same cell: their recorded
UV centers differ. -/
theorem claim_C6 (img : Image)
    (hvis : ∃ x, x < img.w ∧ ∃ y, y < img.h ∧ 0 < (img.pix x y).a) :
    (∀ res, generate_color_atlas img = some res → res.uvMap = colorToUV img) ∧
    (∀ e ∈ colorToUV img,
      0 ≤ e.2.1 ∧ e.2.1 < 1 ∧ 0 ≤ e.2.2 ∧ e.2.2 < 1) ∧
    (∀ e1 ∈ colorToUV img, ∀ e2 ∈ colorToUV img, e1.1 ≠ e2.1 → e1.2 ≠ e2.2) := by
  have hc := atlasCols_pos hvis
  refine ⟨?_, ?_⟩
  case _ =>
    intro res hres
    rw [generate_color_atlas_eq_some hc] at hres
    rcases Option.some.inj hres with rfl
    rfl
  have hr := atlasRows_pos hvis
  have hcle : atlasCols img ≤ tex_size := atlasCols_le
  have hrle : atlasRows img ≤ tex_size := atlasRows_le hvis
  have hgrid := num_colors_le_mul hvis
  constructor
  · intro e he
    unfold colorToUV at he
    rcases List.mem_map.mp he with ⟨ic, hic, rfl⟩
    obtain ⟨i, c⟩ := ic
    have hi := (List.mem_enum hic).1
    have hi2 : i < atlasCols img * atlasRows img := by
      unfold num_colors at hgrid
      omega
    exact uvCenter_mem_unit hc hcle hr hrle hi2
  · intro e1 he1 e2 he2 hne
    unfold colorToUV at he1 he2
    rcases List.mem_map.mp he1 with ⟨ic1, hic1, rfl⟩
    rcases List.mem_map.mp he2 with ⟨ic2, hic2, rfl⟩
    obtain ⟨i1, c1⟩ := ic1
    obtain ⟨i2, c2⟩ := ic2
    have h1 := List.mem_enum hic1
    have h2 := List.mem_enum hic2
    have hij : i1 ≠ i2 := by
      intro hcontra
      subst hcontra
      exact hne (h1.2.trans h2.2.symm)
    have hib1 : i1 < atlasCols img * atlasRows img := by
      have := h1.1
      unfold num_colors at hgrid
      omega
    have hib2 : i2 < atlasCols img * atlasRows img := by
      have := h2.1
      unfold num_colors at hgrid
      omega
    exact uvCenter_injective hc hcle hr hrle hib1 hib2 hij

theorem claim_C6_witness :
    (∃ x, x < imgOnePx.w ∧ ∃ y, y < imgOnePx.h ∧ 0 < (imgOnePx.pix x y).a) ∧
    ((∀ res, generate_color_atlas imgOnePx = some res →
      res.uvMap = colorToUV imgOnePx) ∧
    (∀ e ∈ colorToUV imgOnePx,
      0 ≤ e.2.1 ∧ e.2.1 < 1 ∧ 0 ≤ e.2.2 ∧ e.2.2 < 1) ∧
    (∀ e1 ∈ colorToUV imgOnePx, ∀ e2 ∈ colorToUV imgOnePx,
      e1.1 ≠ e2.1 → e1.2 ≠ e2.2)) :=
  ⟨⟨0, by decide, 0, by decide, by decide⟩,
   claim_C6 imgOnePx ⟨0, by decide, 0, by decide, by decide⟩⟩

/-- **C8.** If the number of distinct visible colors exceeds
`tex_size² = 1048576`, exactly `tex_size²` colors are retained — the
first that many in enumeration order — and the rest dropped; the retained
colors are original colors (no merging or resampling) and no error is
raised. -/
theorem claim_C8 (img : Image)
    (hover : (uniqueColors img).length > max_colors) :
    packColors (uniqueColors img) = (uniqueColors img).take max_colors ∧
    num_colors img = max_colors ∧
    (∀ c ∈ packColors (uniqueColors img), c ∈ uniqueColors img) ∧
    generate_color_atlas img ≠ none := by
  have hpack : packColors (uniqueColors img) = (uniqueColors img).take max_colors := by
    unfold packColors
    rw [if_pos hover]
  have hlen : num_colors img = max_colors := by
    unfold num_colors
    rw [hpack, List.length_take]
    omega
  refine ⟨hpack, hlen, packColors_sublist _, ?_⟩
  have hpos : 0 < num_colors img := by
    rw [hlen]; norm_num [max_colors, tex_size]
  have hc : 0 < atlasCols img := ceilSqrt_pos hpos
  rw [generate_color_atlas_eq_some hc]
  simp

/-- A sample image with `tex_size² + 1` distinct visible colors (all
model channels are `Nat`, so one channel may carry the index). -/
def imgBig : Image := ⟨max_colors + 1, 1, fun x _ => ⟨x, 0, 0, 1⟩⟩

theorem filterMap_some_eq_map {α β : Type} (g : α → β) (l : List α) :
    (l.filterMap fun x => some (g x)) = l.map g := by
  induction l with
  | nil => rfl
  | cons a l ih => simp [List.filterMap_cons, ih]

theorem uniqueColors_imgBig :
    uniqueColors imgBig = (List.range (max_colors + 1)).map fun x =>
      Color.mk x 0 0 1 := by
  have hvseq : visibleColorsSeq imgBig
      = (List.range (max_colors + 1)).map fun x => Color.mk x 0 0 1 := by
    unfold visibleColorsSeq allPixels
    show ((List.range 1).flatMap fun y =>
        (List.range (max_colors + 1)).map fun x => (x, y)).filterMap _ = _
    rw [show List.range 1 = [0] by decide]
    rw [show ([0].flatMap fun y =>
        (List.range (max_colors + 1)).map fun x => (x, y))
      = (List.range (max_colors + 1)).map fun x => (x, 0) by simp]
    rw [List.filterMap_map]
    have : ((fun p : Nat × Nat =>
        if (imgBig.pix p.1 p.2).a > 0 then some (imgBig.pix p.1 p.2) else none) ∘
        fun x => (x, (0 : Nat)))
        = fun x => some (Color.mk x 0 0 1) := by
      funext x
      simp [imgBig]
    rw [this, filterMap_some_eq_map]
  unfold uniqueColors
  rw [hvseq]
  rw [List.dedup_eq_self]
  apply List.Nodup.map
  · intro a b hab
    simpa [Color.mk.injEq] using hab
  · exact List.nodup_range _

theorem imgBig_over : (uniqueColors imgBig).length > max_colors := by
  rw [uniqueColors_imgBig, List.length_map, List.length_range]
  omega

theorem claim_C8_witness :
    (uniqueColors imgBig).length > max_colors ∧
    (packColors (uniqueColors imgBig) = (uniqueColors imgBig).take max_colors ∧
    num_colors imgBig = max_colors ∧
    (∀ c ∈ packColors (uniqueColors imgBig), c ∈ uniqueColors imgBig) ∧
    generate_color_atlas imgBig ≠ none) :=
  ⟨imgBig_over, claim_C8 imgBig imgBig_over⟩

/-! ### Tiling facts -/

theorem colsPerMesh_pos {w maxTris : Nat} (hw : 1 ≤ w) (ht : 2 ≤ maxTris) :
    0 < colsPerMesh w maxTris := by
  unfold colsPerMesh
  have h1 : 1 ≤ maxTris / 2 := by omega
  have h2 : 0 < Nat.sqrt (maxTris / 2) := Nat.sqrt_pos.mpr h1
  exact Nat.lt_min.mpr ⟨hw, h2⟩

theorem colsPerMesh_le_half {w maxTris : Nat} :
    colsPerMesh w maxTris ≤ maxTris / 2 := by
  unfold colsPerMesh
  calc min w (Nat.sqrt (maxTris / 2)) ≤ Nat.sqrt (maxTris / 2) :=
        Nat.min_le_right _ _
    _ ≤ maxTris / 2 := Nat.sqrt_le_self _

theorem rowsPerMesh_pos {h w maxTris : Nat} (hh : 1 ≤ h) (hw : 1 ≤ w)
    (ht : 2 ≤ maxTris) : 0 < rowsPerMesh h w maxTris := by
  unfold rowsPerMesh
  have hc := colsPerMesh_pos hw ht
  have h2 : 1 ≤ (maxTris / 2) / colsPerMesh w maxTris :=
    (Nat.one_le_div_iff hc).mpr colsPerMesh_le_half
  exact Nat.lt_min.mpr ⟨hh, h2⟩

/-- Membership in the tile rectangle `[x_start, x_end) × [y_start, y_end)`
of tile `(tx, ty)`. -/
def inTile (w h maxTris tx ty x y : Nat) : Prop :=
  tileXStart w maxTris tx ≤ x ∧ x < tileXEnd w maxTris tx ∧
  tileYStart h w maxTris ty ≤ y ∧ y < tileYEnd h w maxTris ty

/-- **C3.** For every image with `w, h ≥ 1` and every budget
`max_tris ≥ 2`, the tile rectangles (skipped ones included) form a
complete, non-overlapping partition of `[0,w) × [0,h)`: every image pixel
lies in a tile, every tile pixel lies in the image, and no pixel lies in
two distinct tiles. -/
theorem claim_C3 (w h maxTris : Nat) (hw : 1 ≤ w) (hh : 1 ≤ h)
    (ht : 2 ≤ maxTris) :
    (∀ x y, x < w → y < h → ∃ tx ty, tx < numMeshesX w maxTris ∧
        ty < numMeshesY h w maxTris ∧ inTile w h maxTris tx ty x y) ∧
    (∀ tx ty x y, inTile w h maxTris tx ty x y → x < w ∧ y < h) ∧
    (∀ tx ty tx' ty' x y, inTile w h maxTris tx ty x y →
        inTile w h maxTris tx' ty' x y → tx = tx' ∧ ty = ty') := by
  have hc := colsPerMesh_pos hw ht
  have hr := rowsPerMesh_pos hh hw ht
  refine ⟨?_, ?_, ?_⟩
  · intro x y hx hy
    refine ⟨x / colsPerMesh w maxTris, y / rowsPerMesh h w maxTris, ?_, ?_, ?_, ?_, ?_, ?_⟩
    · rw [Nat.div_lt_iff_lt_mul hc]
      calc x < w := hx
        _ ≤ numMeshesX w maxTris * colsPerMesh w maxTris := ceilDivN_mul_ge w hc
    · rw [Nat.div_lt_iff_lt_mul hr]
      calc y < h := hy
        _ ≤ numMeshesY h w maxTris * rowsPerMesh h w maxTris := ceilDivN_mul_ge h hr
    · exact Nat.div_mul_le_self x _
    · unfold tileXEnd
      refine Nat.lt_min.mpr ⟨?_, hx⟩
      have h1 : colsPerMesh w maxTris * (x / colsPerMesh w maxTris) + x % colsPerMesh w maxTris = x :=
        Nat.div_add_mod x _
      have h2 : x % colsPerMesh w maxTris < colsPerMesh w maxTris := Nat.mod_lt x hc
      have h3 : (x / colsPerMesh w maxTris + 1) * colsPerMesh w maxTris
          = colsPerMesh w maxTris * (x / colsPerMesh w maxTris) + colsPerMesh w maxTris := by
        ring
      omega
    · exact Nat.div_mul_le_self y _
    · unfold tileYEnd
      refine Nat.lt_min.mpr ⟨?_, hy⟩
      have h1 : rowsPerMesh h w maxTris * (y / rowsPerMesh h w maxTris) + y % rowsPerMesh h w maxTris = y :=
        Nat.div_add_mod y _
      have h2 : y % rowsPerMesh h w maxTris < rowsPerMesh h w maxTris := Nat.mod_lt y hr
      have h3 : (y / rowsPerMesh h w maxTris + 1) * rowsPerMesh h w maxTris
          = rowsPerMesh h w maxTris * (y / rowsPerMesh h w maxTris) + rowsPerMesh h w maxTris := by
        ring
      omega
  · intro tx ty x y hin
    rcases hin with ⟨_, hx, _, hy⟩
    constructor
    · calc x < tileXEnd w maxTris tx := hx
        _ ≤ w := Nat.min_le_right _ _
    · calc y < tileYEnd h w maxTris ty := hy
        _ ≤ h := Nat.min_le_right _ _
  · intro tx ty tx' ty' x y hin hin'
    have key : ∀ t, tileXStart w maxTris t ≤ x → x < tileXEnd w maxTris t →
        t = x / colsPerMesh w maxTris := by
      intro t h1 h2
      have h3 : x < (t + 1) * colsPerMesh w maxTris :=
        lt_of_lt_of_le h2 (Nat.min_le_left _ _)
      have h4 : t * colsPerMesh w maxTris ≤ x := h1
      symm
      exact Nat.div_eq_of_lt_le h4 (by simpa [Nat.succ_eq_add_one] using h3)
    have keyY : ∀ t, tileYStart h w maxTris t ≤ y → y < tileYEnd h w maxTris t →
        t = y / rowsPerMesh h w maxTris := by
      intro t h1 h2
      have h3 : y < (t + 1) * rowsPerMesh h w maxTris :=
        lt_of_lt_of_le h2 (Nat.min_le_left _ _)
      symm
      exact Nat.div_eq_of_lt_le h1 (by simpa [Nat.succ_eq_add_one] using h3)
    rcases hin with ⟨ha, hb, hc2, hd⟩
    rcases hin' with ⟨ha', hb', hc2', hd'⟩
    rw [key tx ha hb, key tx' ha' hb', keyY ty hc2 hd, keyY ty' hc2' hd']
    exact ⟨rfl, rfl⟩

theorem claim_C3_witness :
    ((1:Nat) ≤ 2 ∧ (1:Nat) ≤ 2 ∧ (2:Nat) ≤ 2) ∧
    ((∀ x y, x < 2 → y < 2 → ∃ tx ty, tx < numMeshesX 2 2 ∧
        ty < numMeshesY 2 2 2 ∧ inTile 2 2 2 tx ty x y) ∧
    (∀ tx ty x y, inTile 2 2 2 tx ty x y → x < 2 ∧ y < 2) ∧
    (∀ tx ty tx' ty' x y, inTile 2 2 2 tx ty x y →
        inTile 2 2 2 tx' ty' x y → tx = tx' ∧ ty = ty')) :=
  ⟨⟨by decide, by decide, by decide⟩,
   claim_C3 2 2 2 (by decide) (by decide) (by decide)⟩

/-- **C4.** Every tile rectangle satisfies the triangle budget:
`(x_end - x_start) * (y_end - y_start) * 2 ≤ max_tris`. -/
theorem claim_C4 (w h maxTris tx ty : Nat) (hw : 1 ≤ w) (hh : 1 ≤ h)
    (ht : 2 ≤ maxTris) (htx : tx < numMeshesX w maxTris)
    (hty : ty < numMeshesY h w maxTris) :
    (tileXEnd w maxTris tx - tileXStart w maxTris tx) *
      (tileYEnd h w maxTris ty - tileYStart h w maxTris ty) * 2 ≤ maxTris := by
  have h1 : tileXEnd w maxTris tx - tileXStart w maxTris tx
      ≤ colsPerMesh w maxTris := by
    unfold tileXEnd tileXStart
    have hmin := Nat.min_le_left ((tx + 1) * colsPerMesh w maxTris) w
    have hexp : (tx + 1) * colsPerMesh w maxTris
        = tx * colsPerMesh w maxTris + colsPerMesh w maxTris := by ring
    omega
  have h2 : tileYEnd h w maxTris ty - tileYStart h w maxTris ty
      ≤ rowsPerMesh h w maxTris := by
    unfold tileYEnd tileYStart
    have hmin := Nat.min_le_left ((ty + 1) * rowsPerMesh h w maxTris) h
    have hexp : (ty + 1) * rowsPerMesh h w maxTris
        = ty * rowsPerMesh h w maxTris + rowsPerMesh h w maxTris := by ring
    omega
  have h3 : colsPerMesh w maxTris * rowsPerMesh h w maxTris ≤ maxTris / 2 := by
    have hstep : rowsPerMesh h w maxTris
        ≤ (maxTris / 2) / colsPerMesh w maxTris := by
      unfold rowsPerMesh
      exact Nat.min_le_right _ _
    calc colsPerMesh w maxTris * rowsPerMesh h w maxTris
        ≤ colsPerMesh w maxTris * ((maxTris / 2) / colsPerMesh w maxTris) :=
          Nat.mul_le_mul_left _ hstep
      _ = ((maxTris / 2) / colsPerMesh w maxTris) * colsPerMesh w maxTris :=
          Nat.mul_comm _ _
      _ ≤ maxTris / 2 := Nat.div_mul_le_self _ _
  calc (tileXEnd w maxTris tx - tileXStart w maxTris tx) *
      (tileYEnd h w maxTris ty - tileYStart h w maxTris ty) * 2
      ≤ colsPerMesh w maxTris * rowsPerMesh h w maxTris * 2 :=
        Nat.mul_le_mul_right _ (Nat.mul_le_mul h1 h2)
    _ ≤ (maxTris / 2) * 2 := Nat.mul_le_mul_right _ h3
    _ ≤ maxTris := by omega

theorem colsPerMesh_two {w : Nat} (hw : 1 ≤ w) : colsPerMesh w 2 = 1 := by
  unfold colsPerMesh
  rw [show (2:Nat) / 2 = 1 from rfl, Nat.sqrt_one]
  exact Nat.min_eq_right hw

theorem rowsPerMesh_two {h w : Nat} (hh : 1 ≤ h) (hw : 1 ≤ w) :
    rowsPerMesh h w 2 = 1 := by
  unfold rowsPerMesh
  rw [colsPerMesh_two hw, show (2:Nat) / 2 = 1 from rfl]
  exact Nat.min_eq_right hh

theorem numMeshesX_two_two : numMeshesX 2 2 = 2 := by
  unfold numMeshesX ceilDivN
  rw [colsPerMesh_two (by omega)]

theorem numMeshesY_two_two : numMeshesY 2 2 2 = 2 := by
  unfold numMeshesY ceilDivN
  rw [rowsPerMesh_two (by omega) (by omega)]

theorem claim_C4_witness :
    ((1:Nat) ≤ 2 ∧ (1:Nat) ≤ 2 ∧ (2:Nat) ≤ 2 ∧
      0 < numMeshesX 2 2 ∧ 0 < numMeshesY 2 2 2) ∧
    (tileXEnd 2 2 0 - tileXStart 2 2 0) *
      (tileYEnd 2 2 2 0 - tileYStart 2 2 2 0) * 2 ≤ 2 :=
  ⟨⟨by decide, by decide, by decide,
    by rw [numMeshesX_two_two]; omega, by rw [numMeshesY_two_two]; omega⟩,
   claim_C4 2 2 2 0 0 (by decide) (by decide) (by decide)
      (by rw [numMeshesX_two_two]; omega) (by rw [numMeshesY_two_two]; omega)⟩

/-! ### Facts about the per-tile pixel loop -/

theorem emitPixels_verts_length (img : Image) (m : List (Color × ℚ × ℚ))
    (vi ui : Nat) (ps : List (Nat × Nat)) :
    (emitPixels img m vi ui ps).verts.length = 4 * ps.length := by
  induction ps generalizing vi ui with
  | nil => rfl
  | cons p ps ih =>
    simp only [emitPixels, List.length_append, ih, List.length_cons]
    simp [pixelVerts]
    ring

theorem emitPixels_uvs_length (img : Image) (m : List (Color × ℚ × ℚ))
    (vi ui : Nat) (ps : List (Nat × Nat)) :
    (emitPixels img m vi ui ps).uvs.length = 4 * ps.length := by
  induction ps generalizing vi ui with
  | nil => rfl
  | cons p ps ih =>
    simp only [emitPixels, List.length_append, ih, List.length_cons]
    simp [pixelUVs]
    ring

theorem emitPixels_faces_length (img : Image) (m : List (Color × ℚ × ℚ))
    (vi ui : Nat) (ps : List (Nat × Nat)) :
    (emitPixels img m vi ui ps).faces.length
      = ps.countP fun p => decide (0 < (img.pix p.1 p.2).a) := by
  induction ps generalizing vi ui with
  | nil => rfl
  | cons p ps ih =>
    simp only [emitPixels, List.length_append, ih, List.countP_cons]
    by_cases ha : 0 < (img.pix p.1 p.2).a
    · simp [ha]
      omega
    · simp [ha]

/-- The `vt` lines of a tile are the per-pixel blocks of four, in pixel
order. -/
theorem emitPixels_uvs_block (img : Image) (m : List (Color × ℚ × ℚ))
    (vi ui : Nat) (ps : List (Nat × Nat)) (k : Nat) (hk : k < ps.length) :
    ((emitPixels img m vi ui ps).uvs.drop (4 * k)).take 4
      = pixelUVs m (img.pix (ps.get ⟨k, hk⟩).1 (ps.get ⟨k, hk⟩).2) := by
  induction ps generalizing vi ui k with
  | nil => exact absurd hk (by simp)
  | cons p ps ih =>
    have hlen : (pixelUVs m (img.pix p.1 p.2)).length = 4 := by
      simp [pixelUVs]
    cases k with
    | zero =>
      simp only [emitPixels, Nat.mul_zero, List.drop_zero]
      rw [show (4 : Nat) = (pixelUVs m (img.pix p.1 p.2)).length + 0 from by
        rw [hlen]]
      rw [List.take_append, List.take_zero, List.append_nil]
      rfl
    | succ k =>
      simp only [emitPixels]
      rw [show 4 * (k + 1) = (pixelUVs m (img.pix p.1 p.2)).length + 4 * k from by
        rw [hlen]; ring]
      rw [List.drop_append]
      exact ih (vi + 4) (ui + 4) k (by simpa using hk)

/-- Every `f` line of a tile belongs to some visible pixel of rank `k`
and carries the index quadruple starting at `vi + 4k`. -/
theorem emitPixels_faces_mem (img : Image) (m : List (Color × ℚ × ℚ))
    (vi ui : Nat) (ps : List (Nat × Nat)) :
    ∀ face ∈ (emitPixels img m vi ui ps).faces,
      ∃ k, ∃ hk : k < ps.length,
        0 < (img.pix (ps.get ⟨k, hk⟩).1 (ps.get ⟨k, hk⟩).2).a ∧
        face = faceLine (vi + 4 * k) (ui + 4 * k) := by
  induction ps generalizing vi ui with
  | nil => intro face hf; exact absurd hf (by simp [emitPixels])
  | cons p ps ih =>
    intro face hf
    simp only [emitPixels] at hf
    rw [List.mem_append] at hf
    rcases hf with hf | hf
    · by_cases ha : 0 < (img.pix p.1 p.2).a
      · rw [if_pos ha] at hf
        rcases List.mem_singleton.mp hf with rfl
        refine ⟨0, by simp, by simpa using ha, ?_⟩
        simp
      · rw [if_neg ha] at hf
        exact absurd hf (by simp)
    · rcases ih (vi + 4) (ui + 4) face hf with ⟨k, hk, hvis, heq⟩
      refine ⟨k + 1, by simpa using Nat.succ_lt_succ hk, by simpa using hvis, ?_⟩
      rw [heq]
      rw [show vi + 4 + 4 * k = vi + 4 * (k + 1) from by ring,
        show ui + 4 + 4 * k = ui + 4 * (k + 1) from by ring]

/-! ### Facts about the emitted file list -/

theorem tileEntry_eq_some_iff {img : Image} {m : List (Color × ℚ × ℚ)}
    {maxTris tx ty : Nat} {mf : MeshFile} :
    tileEntry img m maxTris tx ty = some mf ↔
      is_tile_fully_transparent img (tileXStart img.w maxTris tx)
        (tileXEnd img.w maxTris tx) (tileYStart img.h img.w maxTris ty)
        (tileYEnd img.h img.w maxTris ty) = false ∧
      mf = tileMeshAt img m maxTris tx ty := by
  unfold tileEntry
  split
  · next hb =>
    simp only [reduceCtorEq, false_iff, not_and]
    intro hfalse
    rw [hb] at hfalse
    exact absurd hfalse (by simp)
  · next hb =>
    rw [Bool.not_eq_true] at hb
    simp [hb, eq_comm]

theorem tileEntry_coords {img : Image} {m : List (Color × ℚ × ℚ)}
    {maxTris tx ty : Nat} {mf : MeshFile}
    (h : tileEntry img m maxTris tx ty = some mf) :
    mf.tileX = tx ∧ mf.tileY = ty := by
  rcases tileEntry_eq_some_iff.mp h with ⟨_, rfl⟩
  exact ⟨rfl, rfl⟩

theorem mem_create_tiled_meshes {img : Image} {m : List (Color × ℚ × ℚ)}
    {maxTris : Nat} {mf : MeshFile} :
    mf ∈ create_tiled_meshes img m maxTris ↔
      ∃ tx ty, tx < numMeshesX img.w maxTris ∧
        ty < numMeshesY img.h img.w maxTris ∧
        tileEntry img m maxTris tx ty = some mf := by
  unfold create_tiled_meshes
  rw [List.mem_flatMap]
  constructor
  · rintro ⟨ty, hty, hmem⟩
    rcases List.mem_filterMap.mp hmem with ⟨tx, htx, he⟩
    exact ⟨tx, ty, List.mem_range.mp htx, List.mem_range.mp hty, he⟩
  · rintro ⟨tx, ty, htx, hty, he⟩
    exact ⟨ty, List.mem_range.mpr hty,
      List.mem_filterMap.mpr ⟨tx, List.mem_range.mpr htx, he⟩⟩

theorem countP_flatMap_eq_sum {α β : Type} (l : List α) (f : α → List β)
    (p : β → Bool) :
    (l.flatMap f).countP p = (l.map fun a => (f a).countP p).sum := by
  induction l with
  | nil => rfl
  | cons a l ih => simp [List.flatMap_cons, List.countP_append, ih]

theorem sum_map_eq_single {α : Type} (L : List α) (g : α → Nat) (a : α)
    (hnd : L.Nodup) (ha : a ∈ L) (h0 : ∀ b ∈ L, b ≠ a → g b = 0) :
    (L.map g).sum = g a := by
  induction L with
  | nil => exact absurd ha (by simp)
  | cons x L ih =>
    rcases List.mem_cons.mp ha with rfl | ha2
    · simp only [List.map_cons, List.sum_cons]
      have hz : ∀ b ∈ L, g b = 0 := by
        intro b hb
        refine h0 b (List.mem_cons_of_mem _ hb) ?_
        rintro rfl
        exact (List.nodup_cons.mp hnd).1 hb
      have hs : (L.map g).sum = 0 := by
        rw [List.sum_eq_zero]
        intro z hz2
        rcases List.mem_map.mp hz2 with ⟨b, hb, rfl⟩
        exact hz b hb
      omega
    · simp only [List.map_cons, List.sum_cons]
      have hx0 : g x = 0 := by
        refine h0 x (List.mem_cons_self _ _) ?_
        rintro rfl
        exact (List.nodup_cons.mp hnd).1 ha2
      rw [hx0, ih (List.nodup_cons.mp hnd).2 ha2
        fun b hb => h0 b (List.mem_cons_of_mem _ hb)]
      omega

theorem countP_filterMap_single {α β : Type} (L : List α) (f : α → Option β)
    (p : β → Bool) (a : α) (hnd : L.Nodup) (ha : a ∈ L)
    (hmatch : ∀ b, f a = some b → p b = true)
    (hmiss : ∀ x ∈ L, x ≠ a → ∀ b, f x = some b → p b = false) :
    (L.filterMap f).countP p = if (f a).isSome then 1 else 0 := by
  induction L with
  | nil => exact absurd ha (by simp)
  | cons x L ih =>
    rw [List.filterMap_cons]
    rcases List.mem_cons.mp ha with rfl | ha2
    · have hL0 : (L.filterMap f).countP p = 0 := by
        rw [List.countP_eq_zero]
        intro b hb
        rcases List.mem_filterMap.mp hb with ⟨z, hz, he⟩
        have hza : z ≠ a := by
          rintro rfl
          exact (List.nodup_cons.mp hnd).1 hz
        simp [hmiss z (List.mem_cons_of_mem _ hz) hza b he]
      cases hf : f a with
      | none => simpa [hf] using hL0
      | some b => simp [hf, List.countP_cons, hL0, hmatch b hf]
    · have hxa : x ≠ a := by
        rintro rfl
        exact (List.nodup_cons.mp hnd).1 ha2
      have hrec := ih (List.nodup_cons.mp hnd).2 ha2
        fun z hz hza => hmiss z (List.mem_cons_of_mem _ hz) hza
      cases hf : f x with
      | none => simpa [hf] using hrec
      | some b =>
        have hpb : p b = false := hmiss x (List.mem_cons_self _ _) hxa b hf
        simp [hf, List.countP_cons, hpb, hrec]

/-- The transparency test holds exactly when every pixel of the
rectangle has alpha 0. -/
theorem is_tile_fully_transparent_iff {img : Image} {x0 x1 y0 y1 : Nat} :
    is_tile_fully_transparent img x0 x1 y0 y1 = true ↔
      ∀ x y, x0 ≤ x → x < x1 → y0 ≤ y → y < y1 → (img.pix x y).a = 0 := by
  unfold is_tile_fully_transparent
  rw [List.all_eq_true]
  constructor
  · intro hall x y h1 h2 h3 h4
    have := hall (x, y) (mem_tilePixels.mpr ⟨h1, h2, h3, h4⟩)
    simpa using this
  · intro h p hp
    rcases mem_tilePixels.mp hp with ⟨h1, h2, h3, h4⟩
    simpa using h p.1 p.2 h1 h2 h3 h4

/-- **C1.** For every tile of the partition, the Mesh Tiler emits no file
for that tile exactly when every pixel of the tile's rectangle has
alpha = 0 (the skip test); otherwise it emits exactly one file for that
tile.  The number of emitted files named by the tile `(tx, ty)` is `0` in
the transparent case and `1` otherwise. -/
theorem claim_C1 (img : Image) (m : List (Color × ℚ × ℚ)) (maxTris tx ty : Nat)
    (htx : tx < numMeshesX img.w maxTris)
    (hty : ty < numMeshesY img.h img.w maxTris) :
    (is_tile_fully_transparent img (tileXStart img.w maxTris tx)
        (tileXEnd img.w maxTris tx) (tileYStart img.h img.w maxTris ty)
        (tileYEnd img.h img.w maxTris ty) = true ↔
      ∀ x y, tileXStart img.w maxTris tx ≤ x → x < tileXEnd img.w maxTris tx →
        tileYStart img.h img.w maxTris ty ≤ y →
        y < tileYEnd img.h img.w maxTris ty → (img.pix x y).a = 0) ∧
    (create_tiled_meshes img m maxTris).countP
        (fun mf => decide (mf.tileX = tx ∧ mf.tileY = ty))
      = if is_tile_fully_transparent img (tileXStart img.w maxTris tx)
            (tileXEnd img.w maxTris tx) (tileYStart img.h img.w maxTris ty)
            (tileYEnd img.h img.w maxTris ty) then 0 else 1 := by
  refine ⟨is_tile_fully_transparent_iff, ?_⟩
  have hmatch : ∀ mf, tileEntry img m maxTris tx ty = some mf →
      decide (mf.tileX = tx ∧ mf.tileY = ty) = true := by
    intro mf he
    have hco := tileEntry_coords he
    simp [hco.1, hco.2]
  have hmiss : ∀ tx' ∈ List.range (numMeshesX img.w maxTris), tx' ≠ tx →
      ∀ mf, tileEntry img m maxTris tx' ty = some mf →
      decide (mf.tileX = tx ∧ mf.tileY = ty) = false := by
    intro tx' htx' hne mf he
    have hco := tileEntry_coords he
    simp only [decide_eq_false_iff_not]
    rintro ⟨hX, _⟩
    exact hne (by omega)
  have hrow : ∀ ty' ∈ List.range (numMeshesY img.h img.w maxTris), ty' ≠ ty →
      (((List.range (numMeshesX img.w maxTris)).filterMap fun tx' =>
        tileEntry img m maxTris tx' ty').countP fun mf =>
          decide (mf.tileX = tx ∧ mf.tileY = ty)) = 0 := by
    intro ty' hty' hne
    rw [List.countP_eq_zero]
    intro mf hmf
    rcases List.mem_filterMap.mp hmf with ⟨tx', _, he⟩
    have hco := tileEntry_coords he
    simp only [decide_eq_true_eq]
    rintro ⟨_, hY⟩
    exact hne (by omega)
  unfold create_tiled_meshes
  rw [countP_flatMap_eq_sum]
  rw [sum_map_eq_single _ _ ty (List.nodup_range _) (List.mem_range.mpr hty) hrow]
  rw [countP_filterMap_single _ _ _ tx (List.nodup_range _)
    (List.mem_range.mpr htx) hmatch hmiss]
  unfold tileEntry
  split
  · next hb => simp [hb]
  · next hb =>
    rw [Bool.not_eq_true] at hb
    simp [hb]

/-- A sample 2×2 image with exactly one visible pixel, at `(0, 0)`. -/
def imgMix : Image :=
  ⟨2, 2, fun x y => if x = 0 ∧ y = 0 then ⟨9, 8, 7, 255⟩ else ⟨0, 0, 0, 0⟩⟩

theorem tileXStart_mix : tileXStart 2 2 0 = 0 := by
  unfold tileXStart
  simp

theorem tileXEnd_mix : tileXEnd 2 2 0 = 1 := by
  unfold tileXEnd
  rw [colsPerMesh_two (by omega)]
  decide

theorem tileYStart_mix : tileYStart 2 2 2 0 = 0 := by
  unfold tileYStart
  simp

theorem tileYEnd_mix : tileYEnd 2 2 2 0 = 1 := by
  unfold tileYEnd
  rw [rowsPerMesh_two (by omega) (by omega)]
  decide

/-- The tile `(0, 0)` of `imgMix` is not transparent, so its mesh file is
emitted. -/
theorem memMix : tileMeshAt imgMix [] 2 0 0 ∈ create_tiled_meshes imgMix [] 2 := by
  apply mem_create_tiled_meshes.mpr
  refine ⟨0, 0, ?_, ?_, ?_⟩
  · show (0 : Nat) < numMeshesX 2 2
    rw [numMeshesX_two_two]
    omega
  · show (0 : Nat) < numMeshesY 2 2 2
    rw [numMeshesY_two_two]
    omega
  · apply tileEntry_eq_some_iff.mpr
    refine ⟨?_, rfl⟩
    show is_tile_fully_transparent imgMix (tileXStart 2 2 0) (tileXEnd 2 2 0)
      (tileYStart 2 2 2 0) (tileYEnd 2 2 2 0) = false
    rw [tileXStart_mix, tileXEnd_mix, tileYStart_mix, tileYEnd_mix]
    decide

theorem claim_C1_witness :
    0 < numMeshesX imgMix.w 2 ∧ 0 < numMeshesY imgMix.h imgMix.w 2 ∧
    (is_tile_fully_transparent imgMix (tileXStart imgMix.w 2 0)
        (tileXEnd imgMix.w 2 0) (tileYStart imgMix.h imgMix.w 2 0)
        (tileYEnd imgMix.h imgMix.w 2 0) = true ↔
      ∀ x y, tileXStart imgMix.w 2 0 ≤ x → x < tileXEnd imgMix.w 2 0 →
        tileYStart imgMix.h imgMix.w 2 0 ≤ y →
        y < tileYEnd imgMix.h imgMix.w 2 0 → (imgMix.pix x y).a = 0) ∧
    (create_tiled_meshes imgMix [] 2).countP
        (fun mf => decide (mf.tileX = 0 ∧ mf.tileY = 0))
      = if is_tile_fully_transparent imgMix (tileXStart imgMix.w 2 0)
            (tileXEnd imgMix.w 2 0) (tileYStart imgMix.h imgMix.w 2 0)
            (tileYEnd imgMix.h imgMix.w 2 0) then 0 else 1 :=
  ⟨by show (0 : Nat) < numMeshesX 2 2; rw [numMeshesX_two_two]; omega,
   by show (0 : Nat) < numMeshesY 2 2 2; rw [numMeshesY_two_two]; omega,
   claim_C1 imgMix [] 2 0 0
     (by show (0 : Nat) < numMeshesX 2 2; rw [numMeshesX_two_two]; omega)
     (by show (0 : Nat) < numMeshesY 2 2 2; rw [numMeshesY_two_two]; omega)⟩

/-- **C5.** Every emitted mesh file holds `4 × (tile pixel count)` vertex
lines, `4 × (tile pixel count)` UV lines, one face line per visible pixel
of the tile, and hence at most `vertex count / 4` face lines. -/
theorem claim_C5 (img : Image) (m : List (Color × ℚ × ℚ)) (maxTris : Nat)
    (mf : MeshFile) (hmf : mf ∈ create_tiled_meshes img m maxTris) :
    mf.geom.verts.length
      = 4 * ((tileYEnd img.h img.w maxTris mf.tileY
          - tileYStart img.h img.w maxTris mf.tileY)
        * (tileXEnd img.w maxTris mf.tileX - tileXStart img.w maxTris mf.tileX)) ∧
    mf.geom.uvs.length
      = 4 * ((tileYEnd img.h img.w maxTris mf.tileY
          - tileYStart img.h img.w maxTris mf.tileY)
        * (tileXEnd img.w maxTris mf.tileX - tileXStart img.w maxTris mf.tileX)) ∧
    mf.geom.faces.length
      = (tilePixelsAt img maxTris mf.tileX mf.tileY).countP
          (fun p => decide (0 < (img.pix p.1 p.2).a)) ∧
    mf.geom.faces.length ≤ mf.geom.verts.length / 4 := by
  rcases mem_create_tiled_meshes.mp hmf with ⟨tx, ty, htx, hty, he⟩
  rcases tileEntry_eq_some_iff.mp he with ⟨hvis, rfl⟩
  unfold tileMeshAt tilePixelsAt
  simp only
  refine ⟨?_, ?_, ?_, ?_⟩
  · rw [emitPixels_verts_length, length_tilePixels]
  · rw [emitPixels_uvs_length, length_tilePixels]
  · rw [emitPixels_faces_length]
  · rw [emitPixels_faces_length, emitPixels_verts_length,
      Nat.mul_div_cancel_left _ (by omega : (0:Nat) < 4)]
    exact List.countP_le_length _

theorem claim_C5_witness :
    tileMeshAt imgMix [] 2 0 0 ∈ create_tiled_meshes imgMix [] 2 ∧
    ((tileMeshAt imgMix [] 2 0 0).geom.verts.length
      = 4 * ((tileYEnd imgMix.h imgMix.w 2 (tileMeshAt imgMix [] 2 0 0).tileY
          - tileYStart imgMix.h imgMix.w 2 (tileMeshAt imgMix [] 2 0 0).tileY)
        * (tileXEnd imgMix.w 2 (tileMeshAt imgMix [] 2 0 0).tileX
          - tileXStart imgMix.w 2 (tileMeshAt imgMix [] 2 0 0).tileX)) ∧
    (tileMeshAt imgMix [] 2 0 0).geom.uvs.length
      = 4 * ((tileYEnd imgMix.h imgMix.w 2 (tileMeshAt imgMix [] 2 0 0).tileY
          - tileYStart imgMix.h imgMix.w 2 (tileMeshAt imgMix [] 2 0 0).tileY)
        * (tileXEnd imgMix.w 2 (tileMeshAt imgMix [] 2 0 0).tileX
          - tileXStart imgMix.w 2 (tileMeshAt imgMix [] 2 0 0).tileX)) ∧
    (tileMeshAt imgMix [] 2 0 0).geom.faces.length
      = (tilePixelsAt imgMix 2 (tileMeshAt imgMix [] 2 0 0).tileX
          (tileMeshAt imgMix [] 2 0 0).tileY).countP
          (fun p => decide (0 < (imgMix.pix p.1 p.2).a)) ∧
    (tileMeshAt imgMix [] 2 0 0).geom.faces.length
      ≤ (tileMeshAt imgMix [] 2 0 0).geom.verts.length / 4) :=
  ⟨memMix, claim_C5 imgMix [] 2 _ memMix⟩

/-- The dictionary fallback: a color absent from `color_to_uv` looks up
as `(0, 0)`. -/
theorem uvLookup_not_mem {m : List (Color × ℚ × ℚ)} {c : Color}
    (h : ∀ q ∈ m, q.1 ≠ c) : uvLookup m c = (0, 0) := by
  induction m with
  | nil => rfl
  | cons q rest ih =>
    unfold uvLookup
    rw [if_neg (h q (List.mem_cons_self _ _))]
    exact ih fun q' hq' => h q' (List.mem_cons_of_mem _ hq')

/-- Dictionary lookup of a present color key returns its entry (the map
built by the Atlas Builder has no duplicate keys, expressed here by the
determinacy hypothesis). -/
theorem uvLookup_mem {m : List (Color × ℚ × ℚ)} {c : Color} {uv : ℚ × ℚ}
    (hmem : (c, uv) ∈ m) (hdet : ∀ q ∈ m, q.1 = c → q.2 = uv) :
    uvLookup m c = uv := by
  induction m with
  | nil => exact absurd hmem (by simp)
  | cons q rest ih =>
    unfold uvLookup
    by_cases hq : q.1 = c
    · rw [if_pos hq]
      exact hdet q (List.mem_cons_self _ _) hq
    · rw [if_neg hq]
      rcases List.mem_cons.mp hmem with heq | hmem2
      · exact absurd (by rw [← heq]) hq
      · exact ih hmem2 fun q' hq' => hdet q' (List.mem_cons_of_mem _ hq')

/-- **C9.** In every emitted mesh file, the four UV lines of the pixel of
rank `k` are identical and equal `(u, 1 - v)` for the pixel color's map
entry `(u, v)`; a color key absent from the map falls back to `(0, 0)`
rather than failing. -/
theorem claim_C9 (img : Image) (m : List (Color × ℚ × ℚ)) (maxTris : Nat)
    (mf : MeshFile) (hmf : mf ∈ create_tiled_meshes img m maxTris) :
    (∀ k, ∀ hk : k < (tilePixelsAt img maxTris mf.tileX mf.tileY).length,
      (mf.geom.uvs.drop (4 * k)).take 4
        = List.replicate 4
            ((uvLookup m (img.pix
                ((tilePixelsAt img maxTris mf.tileX mf.tileY).get ⟨k, hk⟩).1
                ((tilePixelsAt img maxTris mf.tileX mf.tileY).get ⟨k, hk⟩).2)).1,
             1 - (uvLookup m (img.pix
                ((tilePixelsAt img maxTris mf.tileX mf.tileY).get ⟨k, hk⟩).1
                ((tilePixelsAt img maxTris mf.tileX mf.tileY).get ⟨k, hk⟩).2)).2)) ∧
    (∀ c uv, (c, uv) ∈ m → (∀ q ∈ m, q.1 = c → q.2 = uv) →
      uvLookup m c = uv) ∧
    (∀ c : Color, (∀ q ∈ m, q.1 ≠ c) → uvLookup m c = (0, 0)) := by
  rcases mem_create_tiled_meshes.mp hmf with ⟨tx, ty, htx, hty, he⟩
  rcases tileEntry_eq_some_iff.mp he with ⟨hvis, rfl⟩
  unfold tileMeshAt
  simp only
  refine ⟨?_, ?_, ?_⟩
  · intro k hk
    exact emitPixels_uvs_block img m 1 1 (tilePixelsAt img maxTris tx ty) k hk
  · intro c uv hmem hdet
    exact uvLookup_mem hmem hdet
  · intro c hc
    exact uvLookup_not_mem hc

theorem claim_C9_witness :
    tileMeshAt imgMix [] 2 0 0 ∈ create_tiled_meshes imgMix [] 2 ∧
    ((∀ k, ∀ hk : k < (tilePixelsAt imgMix 2 (tileMeshAt imgMix [] 2 0 0).tileX
        (tileMeshAt imgMix [] 2 0 0).tileY).length,
      ((tileMeshAt imgMix [] 2 0 0).geom.uvs.drop (4 * k)).take 4
        = List.replicate 4
            ((uvLookup [] (imgMix.pix
                ((tilePixelsAt imgMix 2 (tileMeshAt imgMix [] 2 0 0).tileX
                  (tileMeshAt imgMix [] 2 0 0).tileY).get ⟨k, hk⟩).1
                ((tilePixelsAt imgMix 2 (tileMeshAt imgMix [] 2 0 0).tileX
                  (tileMeshAt imgMix [] 2 0 0).tileY).get ⟨k, hk⟩).2)).1,
             1 - (uvLookup [] (imgMix.pix
                ((tilePixelsAt imgMix 2 (tileMeshAt imgMix [] 2 0 0).tileX
                  (tileMeshAt imgMix [] 2 0 0).tileY).get ⟨k, hk⟩).1
                ((tilePixelsAt imgMix 2 (tileMeshAt imgMix [] 2 0 0).tileX
                  (tileMeshAt imgMix [] 2 0 0).tileY).get ⟨k, hk⟩).2)).2)) ∧
    (∀ c uv, (c, uv) ∈ ([] : List (Color × ℚ × ℚ)) →
      (∀ q ∈ ([] : List (Color × ℚ × ℚ)), q.1 = c → q.2 = uv) →
      uvLookup [] c = uv) ∧
    (∀ c : Color, (∀ q ∈ ([] : List (Color × ℚ × ℚ)), q.1 ≠ c) →
      uvLookup [] c = (0, 0))) :=
  ⟨memMix, claim_C9 imgMix [] 2 _ memMix⟩

/-- **C10.** Every face line of every emitted mesh file references exactly
four vertex/UV pairs; each pair has equal vertex and UV index; the four
indices are `4k+1 .. 4k+4` for the rank `k` of the (visible) pixel the
face belongs to; every referenced index lies in `[1, 4 × tile pixel
count]`, so no face references an unwritten vertex or UV. -/
theorem claim_C10 (img : Image) (m : List (Color × ℚ × ℚ)) (maxTris : Nat)
    (mf : MeshFile) (hmf : mf ∈ create_tiled_meshes img m maxTris) :
    ∀ face ∈ mf.geom.faces,
      face.length = 4 ∧
      ∃ k, ∃ hk : k < (tilePixelsAt img maxTris mf.tileX mf.tileY).length,
        0 < (img.pix ((tilePixelsAt img maxTris mf.tileX mf.tileY).get ⟨k, hk⟩).1
          ((tilePixelsAt img maxTris mf.tileX mf.tileY).get ⟨k, hk⟩).2).a ∧
        face = faceLine (4 * k + 1) (4 * k + 1) ∧
        ∀ pr ∈ face, pr.1 = pr.2 ∧ 1 ≤ pr.1 ∧
          pr.1 ≤ 4 * (tilePixelsAt img maxTris mf.tileX mf.tileY).length := by
  rcases mem_create_tiled_meshes.mp hmf with ⟨tx, ty, htx, hty, he⟩
  rcases tileEntry_eq_some_iff.mp he with ⟨hvis, rfl⟩
  unfold tileMeshAt
  simp only
  intro face hface
  rcases emitPixels_faces_mem img m 1 1 (tilePixelsAt img maxTris tx ty)
    face hface with ⟨k, hk, hvisk, heq⟩
  have heq2 : face = faceLine (4 * k + 1) (4 * k + 1) := by
    rw [heq]
    rw [show 1 + 4 * k = 4 * k + 1 from by ring]
  refine ⟨by rw [heq2]; rfl, k, hk, hvisk, heq2, ?_⟩
  intro pr hpr
  rw [heq2] at hpr
  unfold faceLine at hpr
  simp only [List.mem_cons, List.not_mem_nil, or_false] at hpr
  rcases hpr with rfl | rfl | rfl | rfl <;>
    exact ⟨rfl, by omega, by omega⟩

theorem claim_C10_witness :
    tileMeshAt imgMix [] 2 0 0 ∈ create_tiled_meshes imgMix [] 2 ∧
    (∀ face ∈ (tileMeshAt imgMix [] 2 0 0).geom.faces,
      face.length = 4 ∧
      ∃ k, ∃ hk : k < (tilePixelsAt imgMix 2 (tileMeshAt imgMix [] 2 0 0).tileX
          (tileMeshAt imgMix [] 2 0 0).tileY).length,
        0 < (imgMix.pix ((tilePixelsAt imgMix 2 (tileMeshAt imgMix [] 2 0 0).tileX
            (tileMeshAt imgMix [] 2 0 0).tileY).get ⟨k, hk⟩).1
          ((tilePixelsAt imgMix 2 (tileMeshAt imgMix [] 2 0 0).tileX
            (tileMeshAt imgMix [] 2 0 0).tileY).get ⟨k, hk⟩).2).a ∧
        face = faceLine (4 * k + 1) (4 * k + 1) ∧
        ∀ pr ∈ face, pr.1 = pr.2 ∧ 1 ≤ pr.1 ∧
          pr.1 ≤ 4 * (tilePixelsAt imgMix 2 (tileMeshAt imgMix [] 2 0 0).tileX
            (tileMeshAt imgMix [] 2 0 0).tileY).length) :=
  ⟨memMix, claim_C10 imgMix [] 2 _ memMix⟩

/-! ### The all-transparent image -/

/-- A sample 1×1 image whose only pixel is fully transparent. -/
def imgTrans : Image := ⟨1, 1, fun _ _ => ⟨0, 0, 0, 0⟩⟩

/-- **C2, counterexample.**  On an image in which every pixel has
alpha = 0, the Atlas Builder does **not** produce a defined atlas: with
zero collected colors `cols = 0` and the computation of
`rows = math.ceil(num_colors / cols)` raises `ZeroDivisionError`
(modelled as `none`), refuting the claim that the Atlas Builder does not
fail in this case. -/
theorem claim_C2_cx :
    (∀ x, x < imgTrans.w → ∀ y, y < imgTrans.h → (imgTrans.pix x y).a = 0) ∧
    generate_color_atlas imgTrans = none := by
  constructor
  · decide
  · have hn : num_colors imgTrans = 0 := by decide
    have hc0 : atlasCols imgTrans = 0 := by
      unfold atlasCols
      rw [hn]
      exact (ceilSqrt_eq_zero_iff 0).mpr rfl
    unfold generate_color_atlas
    rw [hc0]
    simp

/-- **C2, amended.**  For an input image in which every pixel has
alpha = 0, the Atlas Builder collects zero color keys, but then fails
with a division by zero while computing the grid rows (`cols = 0`)
instead of producing a defined atlas; the Mesh Tiler produces zero mesh
files. -/
theorem claim_C2_amended (img : Image)
    (halpha : ∀ x, x < img.w → ∀ y, y < img.h → (img.pix x y).a = 0) :
    uniqueColors img = [] ∧
    generate_color_atlas img = none ∧
    ∀ m maxTris, create_tiled_meshes img m maxTris = [] := by
  have hu : uniqueColors img = [] := by
    rw [List.eq_nil_iff_forall_not_mem]
    intro c hc
    rcases of_mem_uniqueColors hc with ⟨x, y, hx, hy, hpix, hca⟩
    have h0 := halpha x hx y hy
    rw [hpix] at h0
    omega
  have hn : num_colors img = 0 := by
    unfold num_colors packColors
    rw [hu]
    simp
  have hg : generate_color_atlas img = none := by
    have hc0 : atlasCols img = 0 := by
      unfold atlasCols
      rw [hn]
      exact (ceilSqrt_eq_zero_iff 0).mpr rfl
    unfold generate_color_atlas
    rw [hc0]
    simp
  refine ⟨hu, hg, ?_⟩
  intro m maxTris
  rw [List.eq_nil_iff_forall_not_mem]
  intro mf hmf
  rcases mem_create_tiled_meshes.mp hmf with ⟨tx, ty, htx, hty, he⟩
  rcases tileEntry_eq_some_iff.mp he with ⟨hfalse, _⟩
  have htrue : is_tile_fully_transparent img (tileXStart img.w maxTris tx)
      (tileXEnd img.w maxTris tx) (tileYStart img.h img.w maxTris ty)
      (tileYEnd img.h img.w maxTris ty) = true := by
    unfold is_tile_fully_transparent
    rw [List.all_eq_true]
    intro p hp
    rcases mem_tilePixels.mp hp with ⟨_, h2, _, h4⟩
    have hxw : p.1 < img.w := by
      have := Nat.min_le_right ((tx + 1) * colsPerMesh img.w maxTris) img.w
      unfold tileXEnd at h2
      omega
    have hyh : p.2 < img.h := by
      have := Nat.min_le_right ((ty + 1) * rowsPerMesh img.h img.w maxTris) img.h
      unfold tileYEnd at h4
      omega
    simp [halpha p.1 hxw p.2 hyh]
  rw [htrue] at hfalse
  exact absurd hfalse (by simp)

theorem claim_C2_amended_witness :
    (∀ x, x < imgTrans.w → ∀ y, y < imgTrans.h → (imgTrans.pix x y).a = 0) ∧
    (uniqueColors imgTrans = [] ∧
    generate_color_atlas imgTrans = none ∧
    ∀ m maxTris, create_tiled_meshes imgTrans m maxTris = []) :=
  ⟨by decide, claim_C2_amended imgTrans (by decide)⟩
